import Mathlib

set_option maxHeartbeats 1000000

/-!
Verification development for the Rush Hour Snow simulation core.

The definitions below are a shallow embedding of the TypeScript sources:
  * `src/data/RoadNetwork.ts`  — graph data model,
  * `src/systems/PathFinding.ts` — the A* planner `findPath`,
  * `src/systems/TrafficSystem.ts` — car data, lane blocking, re-routing,
  * `src/scenes/GameScene.ts` — per-tick car/plow updates and plow dispatch.

JavaScript `number` is modelled by `ℝ` where the code performs square roots
and divisions (costs, progress), and by `ℚ` where the data is plain rational
arithmetic (coordinates, snow levels).  JS `Map`s are association lists with
JS `Map` semantics (set replaces in place, insertion order preserved).
-/

namespace RushHour

/-- Node categories, from `RoadNetwork.ts` (`'intersection' | 'endpoint' | 'depot'`). -/
inductive NodeType where
  | intersection
  | endpoint
  | depot
deriving DecidableEq, Repr

/-- A graph node, from the `Node` interface in `RoadNetwork.ts`. -/
structure Node where
  id : String
  x : ℚ
  y : ℚ
  type : NodeType
deriving DecidableEq, Repr

/-- A road segment, from the `Edge` interface in `RoadNetwork.ts`. -/
structure Edge where
  id : String
  «from» : String
  «to» : String
  snow : ℚ
  blocked : Bool
deriving DecidableEq, Repr

/-- Association-list lookup with JS `Map.get` semantics (first hit wins). -/
def listGet {α : Type} : List (String × α) → String → Option α
  | [], _ => none
  | (k', v) :: rest, k => if k' = k then some v else listGet rest k

/-- The road network, from the `RoadNetwork` interface in `RoadNetwork.ts`. -/
structure RoadNetwork where
  nodes : List (String × Node)
  edges : List (String × Edge)
  adjacency : List (String × List String)

def nodesGet (net : RoadNetwork) (k : String) : Option Node := listGet net.nodes k

def edgesGet (net : RoadNetwork) (k : String) : Option Edge := listGet net.edges k

/-- `network.adjacency.get(nodeId) || []` from the sources. -/
def adjGet (net : RoadNetwork) (k : String) : List String :=
  (listGet net.adjacency k).getD []

/-- `getOtherNode` from `RoadNetwork.ts`. -/
def getOtherNode (edge : Edge) (nodeId : String) : String :=
  if edge.«from» = nodeId then edge.«to» else edge.«from»

/-- Well-formedness of a road network: the invariants `RoadNetwork.ts` establishes
in `createDefaultNetwork` and that the rest of the code relies on — maps are keyed
by the entity ids, edge endpoints are nodes of the network, the adjacency index
lists exactly the touching edges, and accumulation is non-negative (the data-model
invariant of the spec). -/
structure WF (net : RoadNetwork) : Prop where
  nodeKeys : ∀ p ∈ net.nodes, p.1 = p.2.id
  nodeNodup : (net.nodes.map Prod.fst).Nodup
  edgeKeys : ∀ p ∈ net.edges, p.1 = p.2.id
  edgeNodup : (net.edges.map Prod.fst).Nodup
  endA : ∀ p ∈ net.edges, (nodesGet net p.2.«from»).isSome
  endB : ∀ p ∈ net.edges, (nodesGet net p.2.«to»).isSome
  adjComplete : ∀ p ∈ net.edges, p.1 ∈ adjGet net p.2.«from» ∧ p.1 ∈ adjGet net p.2.«to»
  adjSound : ∀ q ∈ net.adjacency, ∀ eid ∈ q.2,
      ∃ e, edgesGet net eid = some e ∧ (e.«from» = q.1 ∨ e.«to» = q.1)
  snowNonneg : ∀ p ∈ net.edges, 0 ≤ p.2.snow

/-- `distance` from `PathFinding.ts`: `Math.sqrt((x2-x1)**2 + (y2-y1)**2)`. -/
noncomputable def distFn (x1 y1 x2 y2 : ℚ) : ℝ :=
  Real.sqrt (((x2 - x1) ^ 2 + (y2 - y1) ^ 2 : ℚ) : ℝ)

/-- `heuristic` from `PathFinding.ts` (Euclidean distance, same formula). -/
noncomputable def heuristic (x1 y1 x2 y2 : ℚ) : ℝ :=
  Real.sqrt (((x2 - x1) ^ 2 + (y2 - y1) ^ 2 : ℚ) : ℝ)

/-- `PathOptions` from `PathFinding.ts` (absent flags default to `false`). -/
structure PathOptions where
  ignoreBlocked : Bool
  ignoreSnow : Bool
deriving DecidableEq, Repr

/-- The `options` argument of `findPath`: `PathOptions | boolean`
(backwards compatibility for the legacy boolean form). -/
inductive PathArg where
  | opts (o : PathOptions)
  | legacy (b : Bool)
deriving DecidableEq, Repr

/-- `typeof options === 'boolean' ? { ignoreBlocked: options } : options`:
the legacy boolean sets only `ignoreBlocked`; `ignoreSnow` stays falsy. -/
def parseOptions : PathArg → PathOptions
  | .opts o => o
  | .legacy b => ⟨b, false⟩

/-- `PathNode` from `PathFinding.ts`; `parent` links make this inductive. -/
inductive PathNode where
  | mk (nodeId : String) (g h f : ℝ) (parent : Option PathNode) (edge : Option Edge)

def PathNode.nodeId : PathNode → String
  | .mk n _ _ _ _ _ => n

noncomputable def PathNode.g : PathNode → ℝ
  | .mk _ g _ _ _ _ => g

noncomputable def PathNode.h : PathNode → ℝ
  | .mk _ _ h _ _ _ => h

noncomputable def PathNode.f : PathNode → ℝ
  | .mk _ _ _ f _ _ => f

def PathNode.parent : PathNode → Option PathNode
  | .mk _ _ _ _ p _ => p

def PathNode.edge : PathNode → Option Edge
  | .mk _ _ _ _ _ e => e

/-- `openSet.get(id)` — lookup by node id in insertion order. -/
def openLookup : List PathNode → String → Option PathNode
  | [], _ => none
  | pn :: rest, nid => if pn.nodeId = nid then some pn else openLookup rest nid

/-- `openSet.set(id, node)` — replace in place, else append (JS `Map.set`). -/
def openReplace : List PathNode → PathNode → List PathNode
  | [], new => [new]
  | pn :: rest, new =>
      if pn.nodeId = new.nodeId then new :: rest else pn :: openReplace rest new

/-- `openSet.delete(id)` — remove the entry with the given node id. -/
def openErase : List PathNode → String → List PathNode
  | [], _ => []
  | pn :: rest, nid => if pn.nodeId = nid then rest else pn :: openErase rest nid

open scoped Classical in
/-- One step of the lowest-f-score scan of `findPath`
(`if (!current || node.f < current.f) current = node`). -/
noncomputable def selStep : Option PathNode → PathNode → Option PathNode
  | none, n => some n
  | some c, n => if n.f < c.f then some n else some c

/-- The lowest-f-score scan of `findPath` over the open set in insertion order. -/
noncomputable def selectMin (l : List PathNode) : Option PathNode :=
  l.foldl selStep none

/-- `reconstructPath` from `PathFinding.ts`: walk parent links, collecting the
edge used at each step. -/
def reconstructPath : PathNode → List Edge
  | .mk _ _ _ _ parent edge =>
    match edge with
    | none => []
    | some e =>
      (match parent with
       | none => []
       | some p => reconstructPath p) ++ [e]

/-- The neighbor-expansion body of `findPath`'s `for (const edgeId of edgeIds)`
loop.  Missing-id lookups (`!` assertions in the source) skip the edge; under
`WF` they never occur. -/
noncomputable def expandEdge (net : RoadNetwork) (opts : PathOptions) (goalNode : Node)
    (closed : List String) (current : PathNode) (op : List PathNode) (edgeId : String) :
    List PathNode :=
  match edgesGet net edgeId with
  | none => op
  | some edge =>
    if edge.blocked = true ∧ opts.ignoreBlocked = false then op
    else
      let neighborId := getOtherNode edge current.nodeId
      if neighborId ∈ closed then op
      else
        match nodesGet net neighborId, nodesGet net current.nodeId with
        | some neighbor, some curNode =>
          let snowPenalty : ℚ := if opts.ignoreSnow then 0 else min (edge.snow * 0.5) 5 * 10
          let edgeCost : ℝ := distFn curNode.x curNode.y neighbor.x neighbor.y + (snowPenalty : ℝ)
          let tentativeG := current.g + edgeCost
          let insert := fun (_ : Unit) =>
            let hv := heuristic neighbor.x neighbor.y goalNode.x goalNode.y
            openReplace op
              (PathNode.mk neighborId tentativeG hv (tentativeG + hv) (some current) (some edge))
          match openLookup op neighborId with
          | some existing => if existing.g ≤ tentativeG then op else insert ()
          | none => insert ()
        | _, _ => op

/-- The `while (openSet.size > 0)` loop of `findPath`, with an explicit fuel
parameter bounding the number of iterations; `none` means the fuel ran out
(shown impossible for fuel `≥ |nodes| + 1` below), `some none` is the `null`
("no path") result. -/
noncomputable def searchLoop (net : RoadNetwork) (opts : PathOptions) (goalId : String)
    (goalNode : Node) : Nat → List PathNode → List String → Option (Option (List Edge))
  | 0, _, _ => none
  | fuel + 1, op, closed =>
    match selectMin op with
    | none => some none
    | some current =>
      if current.nodeId = goalId then some (some (reconstructPath current))
      else
        searchLoop net opts goalId goalNode fuel
          ((adjGet net current.nodeId).foldl
            (expandEdge net opts goalNode (current.nodeId :: closed) current)
            (openErase op current.nodeId))
          (current.nodeId :: closed)

/-- `findPath` from `PathFinding.ts`.  The start node's `f` is first `0` and then
re-assigned to `g + h`, so it begins as `0 + h`. -/
noncomputable def findPath (net : RoadNetwork) (startNodeId goalNodeId : String)
    (options : PathArg) : Option (List Edge) :=
  match nodesGet net startNodeId, nodesGet net goalNodeId with
  | some start, some goal =>
    let opts := parseOptions options
    let h0 := heuristic start.x start.y goal.x goal.y
    (searchLoop net opts goalNodeId goal (net.nodes.length + 1)
      [PathNode.mk startNodeId 0 h0 (0 + h0) none none] []).getD none
  | _, _ => none

/-! ### Snow layer (modelled from the spec)

`SnowSystem.ts` is imported by the scene and road code but is not among the
sources of this repository dump, so its two mutation operations are modelled
from the spec. -/

/-- Modelled from the spec: `SnowSystem.ts` (the snow layer) is missing from the
sources.  The spec fixes the deep tier boundary at 9 ("exceeding the deep
threshold (9)", Scenario B; the plow's rendering comment likewise reads
"Snow levels: 0-2 clear, 2-5 light, 5-8 moderate, 9+ deep"). -/
def SNOW_LEVELS_DEEP : ℚ := 9

/-- A single accumulation/clearing operation on one segment's snow level. -/
inductive SnowOp where
  | accumulate (amount : ℚ)
  | clear (amount : ℚ)

/-- Modelled from the spec: `SnowSystem.ts` is missing from the sources.
`accumulate` adds the tick's snowfall (`baseRate * intensity * elapsedSeconds`,
a non-negative amount); `clear(segmentId, amount)` decreases accumulation,
"clamped at 0". -/
def applySnowOp (snow : ℚ) : SnowOp → ℚ
  | .accumulate amount => snow + amount
  | .clear amount => max 0 (snow - amount)

/-! ### Traffic system (`TrafficSystem.ts`) -/

/-- `CarData` from `TrafficSystem.ts`. -/
structure CarData where
  id : String
  currentNodeId : String
  destinationNodeId : String
  path : List Edge
  pathIndex : Nat
  progress : ℝ
  speed : ℝ
  stuck : Bool
  stuckTime : ℝ
  waiting : Bool
  rerouteCheckTimer : Int

/-- `getCurrentEdge` from `TrafficSystem.ts`. -/
def getCurrentEdge (car : CarData) : Option Edge :=
  car.path[car.pathIndex]?

open scoped Classical in
/-- `getCarsAheadInLane` from `TrafficSystem.ts`, before its sort: only cars on
the same edge travelling the same direction (same `currentNodeId`) that are
ahead (`otherCar.progress > car.progress`) are collected, paired with their
distance, in iteration order. -/
noncomputable def carsAheadInLane (cars : List CarData) (car : CarData) :
    List (CarData × ℝ) :=
  match getCurrentEdge car with
  | none => []
  | some edge =>
    cars.foldr
      (fun otherCar acc =>
        if otherCar.id = car.id then acc
        else
          match getCurrentEdge otherCar with
          | none => acc
          | some otherEdge =>
            if otherEdge.id ≠ edge.id then acc
            else if otherCar.currentNodeId ≠ car.currentNodeId then acc
            else if car.progress < otherCar.progress then
              (otherCar, otherCar.progress - car.progress) :: acc
            else acc)
      []

open scoped Classical in
/-- One step of selecting the nearest blocking candidate. -/
noncomputable def nearStep : Option (CarData × ℝ) → CarData × ℝ → Option (CarData × ℝ)
  | none, p => some p
  | some q, p => if p.2 < q.2 then some p else some q

/-- The head of `ahead.sort((a, b) => a.distance - b.distance)`: the first
element of minimal distance (JS `Array.prototype.sort` is stable, so ties keep
iteration order). -/
noncomputable def nearestAhead (l : List (CarData × ℝ)) : Option (CarData × ℝ) :=
  l.foldl nearStep none

open scoped Classical in
/-- `isBlockedByCarAhead` from `TrafficSystem.ts` (`threshold` defaults to 0.12
at the call site in `GameScene.updateCars`). -/
noncomputable def isBlockedByCarAhead (cars : List CarData) (car : CarData)
    (threshold : ℝ) : Option CarData :=
  match nearestAhead (carsAheadInLane cars car) with
  | none => none
  | some nearest =>
    if nearest.2 < threshold ∧ (nearest.1.stuck = true ∨ nearest.1.waiting = true) then
      some nearest.1
    else if nearest.2 < 0.08 then some nearest.1
    else none

/-- `calculatePathCost` from `TrafficSystem.ts`: 1 per edge, plus `snow * 0.5`,
plus 100 for a blocked edge. -/
def calculatePathCost (path : List Edge) : ℚ :=
  path.foldl (fun cost edge => cost + 1 + edge.snow * 0.5 + if edge.blocked then 100 else 0) 0

open scoped Classical in
/-- `tryReroute` from `TrafficSystem.ts` (`snowThreshold` defaults to 8 at the
call site).  Returns the updated car and whether the route was replaced. -/
noncomputable def tryReroute (net : RoadNetwork) (car : CarData) (snowThreshold : ℚ) :
    CarData × Bool :=
  let car1 := { car with rerouteCheckTimer := car.rerouteCheckTimer - 1 }
  if 0 < car1.rerouteCheckTimer then (car1, false)
  else
    let car2 := { car1 with rerouteCheckTimer := 60 }
    if car2.stuck = true ∨ (0.1 : ℝ) < car2.progress then (car2, false)
    else
      match getCurrentEdge car2 with
      | none => (car2, false)
      | some currentEdge =>
        if ¬(snowThreshold < currentEdge.snow ∨ currentEdge.blocked = true) then (car2, false)
        else
          match findPath net car2.currentNodeId car2.destinationNodeId (.legacy false) with
          | none => (car2, false)
          | some newPath =>
            if newPath.length = 0 then (car2, false)
            else
              let remainingPath := car2.path.drop car2.pathIndex
              let oldCost := calculatePathCost remainingPath
              let newCost := calculatePathCost newPath
              if newCost < oldCost * 0.8 then
                ({ car2 with path := newPath, pathIndex := 0, progress := 0 }, true)
              else (car2, false)

/-- `trySpawnCar` from `TrafficSystem.ts` with the random draws made explicit:
`startId`/`endId` are the chosen endpoints and `r` the speed jitter
(`speed = 100 + Math.random() * 50`). -/
noncomputable def trySpawnCar (net : RoadNetwork) (startId endId : String)
    (nextCarId : Nat) (r : ℝ) : Option CarData :=
  match findPath net startId endId (.legacy false) with
  | none => none
  | some path =>
    if path.length = 0 then none
    else
      some
        { id := "car-" ++ toString nextCarId
          currentNodeId := startId
          destinationNodeId := endId
          path := path
          pathIndex := 0
          progress := 0
          speed := 100 + r * 50
          stuck := false
          stuckTime := 0
          waiting := false
          rerouteCheckTimer := 60 }

/-! ### Game scene (`GameScene.ts`) -/

/-- `TIMING.PLOW_COOLDOWN` from `Theme.ts` (milliseconds). -/
def TIMING_PLOW_COOLDOWN : ℝ := 2000

/-- `SPEEDS.PLOW` from `Theme.ts`. -/
def SPEEDS_PLOW : ℝ := 150

/-- `getEdgeLength` from `GameScene.ts` (Euclidean length of the segment). -/
noncomputable def getEdgeLength (net : RoadNetwork) (edge : Edge) : ℝ :=
  match nodesGet net edge.«from», nodesGet net edge.«to» with
  | some a, some b => distFn a.x a.y b.x b.y
  | _, _ => 0

/-- Outcome of one `updateCars` iteration for a single car. -/
inductive CarTick where
  | exited
  | active (car : CarData)

/-- The `stuck` flag of a car-tick outcome (`none` when the car exited). -/
def CarTick.stuckOf : CarTick → Option Bool
  | .exited => none
  | .active c => some c.stuck

open scoped Classical in
/-- One iteration of the per-car loop in `GameScene.updateCars` (rendering, the
entity sync and the tow-truck dispatch side effect are presentation concerns and
are dropped): arrival check, deep-snow immobilization check against
`SNOW_LEVELS.DEEP`, queueing behind a blocking car, re-route attempt, then
movement with the snow speed penalty and segment rollover. -/
noncomputable def updateCar (net : RoadNetwork) (others : List CarData) (car : CarData)
    (delta : ℝ) : CarTick :=
  match getCurrentEdge car with
  | none => CarTick.exited
  | some currentEdge =>
    let car := if SNOW_LEVELS_DEEP ≤ currentEdge.snow ∧ car.stuck = false then
        { car with stuck := true } else car
    if car.stuck = true then
      CarTick.active { car with stuckTime := car.stuckTime + delta, waiting := false }
    else
      match isBlockedByCarAhead others car 0.12 with
      | some _ => CarTick.active { car with waiting := true }
      | none =>
        let car := { car with waiting := false }
        let car := (tryReroute net car 8).1
        let snowPenalty : ℝ := max 0.2 (1 - (currentEdge.snow : ℝ) * 0.08)
        let effectiveSpeed := car.speed * snowPenalty
        let edgeLength := getEdgeLength net currentEdge
        let car := { car with progress := car.progress + effectiveSpeed * (delta / 1000) / edgeLength }
        if 1 ≤ car.progress then
          CarTick.active
            { car with
              currentNodeId := getOtherNode currentEdge car.currentNodeId
              progress := 0
              pathIndex := car.pathIndex + 1 }
        else CarTick.active car

/-- `PlowData` from `Plow.ts`. -/
structure PlowData where
  id : String
  path : List Edge
  pathIndex : Nat
  progress : ℝ
  speed : ℝ
  returning : Bool
  currentNodeId : String

/-- The plow-dispatch state of `GameScene` (`plowCooldown`, the plow map in
insertion order, `nextPlowId`). -/
structure DispatchState where
  plowCooldown : ℝ
  plows : List PlowData
  nextPlowId : Nat

/-- `dispatchPlow` from `GameScene.ts`: rejected under an active cooldown;
otherwise A* routes from the depot to both endpoints of the target edge
(ignoring blockage and snow), the candidate with the fewer edges is kept
(`pathA.length <= pathB.length`), the target edge is appended, a plow is
created and the cooldown restarted. -/
noncomputable def dispatchPlow (net : RoadNetwork) (st : DispatchState) (targetEdge : Edge) :
    DispatchState :=
  if 0 < st.plowCooldown then st
  else
    let pathA := findPath net "depot" targetEdge.«from» (.opts ⟨true, true⟩)
    let pathB := findPath net "depot" targetEdge.«to» (.opts ⟨true, true⟩)
    let pathToTarget : Option (List Edge) :=
      match pathA, pathB with
      | some a, some b => some (if a.length ≤ b.length then a else b)
      | some a, none => some a
      | none, some b => some b
      | none, none => none
    match pathToTarget with
    | none => st
    | some p =>
      let plowData : PlowData :=
        { id := "plow-" ++ toString st.nextPlowId
          path := p ++ [targetEdge]
          pathIndex := 0
          progress := 0
          speed := SPEEDS_PLOW
          returning := false
          currentNodeId := "depot" }
      { plowCooldown := TIMING_PLOW_COOLDOWN
        plows := st.plows ++ [plowData]
        nextPlowId := st.nextPlowId + 1 }

/-- The stuck-car check of `GameScene.updatePlows`: some stuck car occupies the
plow's current edge ahead of it (position seen from the plow's direction),
within 0.3 of the plow. -/
def StuckCarBlocks (cars : List CarData) (d : PlowData) (currentEdge : Edge) : Prop :=
  ∃ car ∈ cars, car.stuck = true ∧
    (∃ carEdge, getCurrentEdge car = some carEdge ∧ carEdge.id = currentEdge.id) ∧
    (let carPosOnEdge : ℝ :=
      if car.currentNodeId = d.currentNodeId then car.progress else 1 - car.progress
     d.progress < carPosOnEdge ∧ carPosOnEdge - d.progress < 0.3)

open scoped Classical in
/-- One iteration of the per-plow loop in `GameScene.updatePlows` (rendering
dropped; the snow-clearing side effect mutates the missing `SnowSystem.ts`
state and is modelled separately by `applySnowOp`).  `none` means the plow is
destroyed this tick. -/
noncomputable def updatePlow (net : RoadNetwork) (cars : List CarData) (d : PlowData)
    (delta : ℝ) : Option PlowData :=
  match d.path[d.pathIndex]? with
  | none =>
    if d.returning then none
    else
      match findPath net d.currentNodeId "depot" (.legacy true) with
      | some returnPath =>
        some { d with returning := true, path := returnPath, pathIndex := 0, progress := 0 }
      | none => none
  | some currentEdge =>
    if StuckCarBlocks cars d currentEdge then some d
    else
      let edgeLength := getEdgeLength net currentEdge
      let progress1 := d.progress + d.speed * (delta / 1000) / edgeLength
      if 1 ≤ progress1 then
        some
          { d with
            currentNodeId := getOtherNode currentEdge d.currentNodeId
            progress := 0
            pathIndex := d.pathIndex + 1 }
      else some { d with progress := progress1 }

/-- A possible single-tick transition of a plow (over an arbitrary network,
car population and frame delta) that keeps the plow alive. -/
def PlowStep (d d' : PlowData) : Prop :=
  ∃ net cars delta, updatePlow net cars d delta = some d'

/-! ### Walks and route costs -/

/-- The cost `findPath` charges for traversing a segment: Euclidean distance
between the segment's endpoints plus the accumulation penalty
`min(snow * 0.5, 5) * 10` (zero when the policy ignores snow). -/
noncomputable def segCost (net : RoadNetwork) (opts : PathOptions) (e : Edge) : ℝ :=
  (match nodesGet net e.«from», nodesGet net e.«to» with
   | some a, some b => distFn a.x a.y b.x b.y
   | _, _ => 0) +
  (((if opts.ignoreSnow then 0 else min (e.snow * 0.5) 5 * 10 : ℚ)) : ℝ)

/-- Total cost of a route: the sum of its segments' costs. -/
noncomputable def routeCost (net : RoadNetwork) (opts : PathOptions) (r : List Edge) : ℝ :=
  (r.map (segCost net opts)).sum

/-- A walk through the network from `s` to `t`: a sequence of network segments,
each admissible under the policy (a blocked segment only when the policy
ignores blockage), consecutive segments sharing the traversal endpoint. -/
inductive ValidWalk (net : RoadNetwork) (opts : PathOptions) :
    String → List Edge → String → Prop
  | nil (s : String) : ValidWalk net opts s [] s
  | cons (s : String) (e : Edge) (rest : List Edge) (t : String)
      (he : edgesGet net e.id = some e)
      (hend : e.«from» = s ∨ e.«to» = s)
      (hb : e.blocked = false ∨ opts.ignoreBlocked = true)
      (hrest : ValidWalk net opts (getOtherNode e s) rest t) :
      ValidWalk net opts s (e :: rest) t

theorem listGet_mem {α : Type} {l : List (String × α)} {k : String} {v : α}
    (h : listGet l k = some v) : (k, v) ∈ l := by
  induction l with
  | nil => simp [listGet] at h
  | cons p rest ih =>
    rw [listGet] at h
    by_cases hk : p.1 = k
    · rw [if_pos hk] at h
      cases h
      have hkp : (k, p.2) = p := by rw [← hk]
      rw [hkp]
      exact List.mem_cons_self _ _
    · rw [if_neg hk] at h
      exact List.mem_cons_of_mem _ (ih h)

theorem getOtherNode_cases (e : Edge) (s : String) :
    getOtherNode e s = e.«from» ∨ getOtherNode e s = e.«to» := by
  unfold getOtherNode
  by_cases h : e.«from» = s
  · rw [if_pos h]; right; rfl
  · rw [if_neg h]; left; rfl

theorem distFn_eq_dist (x1 y1 x2 y2 : ℚ) :
    distFn x1 y1 x2 y2 = dist ((⟨(x1 : ℝ), (y1 : ℝ)⟩ : ℂ)) (⟨(x2 : ℝ), (y2 : ℝ)⟩ : ℂ) := by
  rw [Complex.dist_eq, Complex.abs_apply, Complex.normSq_apply, distFn]
  push_cast
  norm_num
  ring_nf

theorem distFn_nonneg (x1 y1 x2 y2 : ℚ) : 0 ≤ distFn x1 y1 x2 y2 := by
  rw [distFn_eq_dist]; exact dist_nonneg

theorem distFn_symm (x1 y1 x2 y2 : ℚ) : distFn x1 y1 x2 y2 = distFn x2 y2 x1 y1 := by
  rw [distFn_eq_dist, distFn_eq_dist, dist_comm]

theorem distFn_self (x y : ℚ) : distFn x y x y = 0 := by
  rw [distFn_eq_dist]; exact dist_self _

theorem distFn_triangle (x1 y1 x2 y2 x3 y3 : ℚ) :
    distFn x1 y1 x3 y3 ≤ distFn x1 y1 x2 y2 + distFn x2 y2 x3 y3 := by
  rw [distFn_eq_dist, distFn_eq_dist, distFn_eq_dist]
  exact dist_triangle _ _ _

theorem heuristic_eq_distFn (x1 y1 x2 y2 : ℚ) :
    heuristic x1 y1 x2 y2 = distFn x1 y1 x2 y2 := rfl

theorem snowPenalty_nonneg (opts : PathOptions) {s : ℚ} (hs : 0 ≤ s) :
    (0 : ℚ) ≤ if opts.ignoreSnow then 0 else min (s * 0.5) 5 * 10 := by
  by_cases h : opts.ignoreSnow
  · rw [if_pos h]
  · rw [if_neg h]
    have : (0 : ℚ) ≤ min (s * 0.5) 5 := le_min (by linarith) (by norm_num)
    linarith

theorem segCost_nonneg {net : RoadNetwork} {opts : PathOptions} {e : Edge}
    (hwf : WF net) (he : edgesGet net e.id = some e) : 0 ≤ segCost net opts e := by
  have hsnow : 0 ≤ e.snow := hwf.snowNonneg (e.id, e) (listGet_mem he)
  unfold segCost
  have hpen := snowPenalty_nonneg opts hsnow
  have hpen' : (0 : ℝ) ≤ (((if opts.ignoreSnow then 0 else min (e.snow * 0.5) 5 * 10 : ℚ)) : ℝ) := by
    exact_mod_cast hpen
  rcases h1 : nodesGet net e.«from» with _ | a
  · simpa using hpen'
  · rcases h2 : nodesGet net e.«to» with _ | b
    · simpa using hpen'
    · have := distFn_nonneg a.x a.y b.x b.y
      simp only []
      linarith

theorem routeCost_nil (net : RoadNetwork) (opts : PathOptions) :
    routeCost net opts [] = 0 := by simp [routeCost]

theorem routeCost_cons (net : RoadNetwork) (opts : PathOptions) (e : Edge) (r : List Edge) :
    routeCost net opts (e :: r) = segCost net opts e + routeCost net opts r := by
  simp [routeCost]

theorem routeCost_append (net : RoadNetwork) (opts : PathOptions) (r1 r2 : List Edge) :
    routeCost net opts (r1 ++ r2) = routeCost net opts r1 + routeCost net opts r2 := by
  simp [routeCost]

theorem routeCost_nonneg {net : RoadNetwork} {opts : PathOptions} {r : List Edge}
    (hwf : WF net) (h : ∀ e ∈ r, edgesGet net e.id = some e) : 0 ≤ routeCost net opts r := by
  induction r with
  | nil => rw [routeCost_nil]
  | cons e rest ih =>
    rw [routeCost_cons]
    have h1 : 0 ≤ segCost net opts e := segCost_nonneg hwf (h e (by simp))
    have h2 := ih (fun e' he' => h e' (by simp [he']))
    linarith

theorem ValidWalk.append {net : RoadNetwork} {opts : PathOptions} {s m t : String}
    {P1 P2 : List Edge} (h1 : ValidWalk net opts s P1 m) (h2 : ValidWalk net opts m P2 t) :
    ValidWalk net opts s (P1 ++ P2) t := by
  induction h1 with
  | nil => simpa using h2
  | cons s e rest t' he hend hb _ ih => exact ValidWalk.cons s e _ t he hend hb (ih h2)

theorem ValidWalk.edges_mem {net : RoadNetwork} {opts : PathOptions} {s t : String}
    {P : List Edge} (h : ValidWalk net opts s P t) :
    ∀ e ∈ P, edgesGet net e.id = some e := by
  induction h with
  | nil => simp
  | cons s e rest t' he _ _ _ ih =>
    intro e' he'
    rcases List.mem_cons.mp he' with rfl | hmem
    · exact he
    · exact ih e' hmem

theorem ValidWalk.target_present {net : RoadNetwork} {opts : PathOptions} {s t : String}
    {P : List Edge} (hwf : WF net) (h : ValidWalk net opts s P t)
    (hs : (nodesGet net s).isSome) : (nodesGet net t).isSome := by
  induction h with
  | nil => exact hs
  | cons s e rest t' he hend _ _ ih =>
    apply ih
    have hmem := listGet_mem he
    rcases getOtherNode_cases e s with h1 | h1
    · rw [h1]; exact hwf.endA (e.id, e) hmem
    · rw [h1]; exact hwf.endB (e.id, e) hmem

/-! ### Bookkeeping lemmas for the open set -/

@[simp] theorem PathNode.nodeId_mk (n : String) (g h f : ℝ) (p : Option PathNode)
    (e : Option Edge) : (PathNode.mk n g h f p e).nodeId = n := rfl

@[simp] theorem PathNode.g_mk (n : String) (g h f : ℝ) (p : Option PathNode)
    (e : Option Edge) : (PathNode.mk n g h f p e).g = g := rfl

@[simp] theorem PathNode.h_mk (n : String) (g h f : ℝ) (p : Option PathNode)
    (e : Option Edge) : (PathNode.mk n g h f p e).h = h := rfl

@[simp] theorem PathNode.f_mk (n : String) (g h f : ℝ) (p : Option PathNode)
    (e : Option Edge) : (PathNode.mk n g h f p e).f = f := rfl

theorem selStep_isSome (acc : Option PathNode) (n : PathNode) : (selStep acc n).isSome := by
  rcases acc with _ | c
  · rfl
  · rw [selStep]
    by_cases h : n.f < c.f
    · rw [if_pos h]; rfl
    · rw [if_neg h]; rfl

theorem foldl_selStep_isSome (l : List PathNode) (c : PathNode) :
    (l.foldl selStep (some c)).isSome := by
  induction l generalizing c with
  | nil => rfl
  | cons n rest ih =>
    rw [List.foldl_cons]
    have h := selStep_isSome (some c) n
    rcases hsel : selStep (some c) n with _ | d
    · rw [hsel] at h; simp at h
    · exact ih d

theorem selectMin_eq_none {l : List PathNode} (h : selectMin l = none) : l = [] := by
  cases l with
  | nil => rfl
  | cons n rest =>
    exfalso
    unfold selectMin at h
    rw [List.foldl_cons] at h
    have h1 : selStep none n = some n := rfl
    rw [h1] at h
    have := foldl_selStep_isSome rest n
    rw [h] at this
    simp at this

theorem selStep_cases (acc : Option PathNode) (n r : PathNode) (h : selStep acc n = some r) :
    (r = n ∨ acc = some r) ∧ (∀ a, acc = some a → r.f ≤ a.f) ∧ r.f ≤ n.f := by
  rcases acc with _ | c
  · rw [selStep] at h
    cases h
    refine ⟨Or.inl rfl, ?_, le_refl _⟩
    intro a ha
    cases ha
  · rw [selStep] at h
    by_cases hf : n.f < c.f
    · rw [if_pos hf] at h
      cases h
      refine ⟨Or.inl rfl, ?_, le_refl _⟩
      intro a ha
      cases ha
      exact le_of_lt hf
    · rw [if_neg hf] at h
      cases h
      refine ⟨Or.inr rfl, ?_, le_of_not_lt hf⟩
      intro a ha
      cases ha
      exact le_refl _

theorem foldl_selStep_spec (l : List PathNode) :
    ∀ (acc : Option PathNode) (r : PathNode), l.foldl selStep acc = some r →
      (acc = some r ∨ r ∈ l) ∧ (∀ a, acc = some a → r.f ≤ a.f) ∧ ∀ x ∈ l, r.f ≤ x.f := by
  induction l with
  | nil =>
    intro acc r h
    rw [List.foldl_nil] at h
    exact ⟨Or.inl h, by intro a ha; rw [ha] at h; cases h; exact le_refl _, by simp⟩
  | cons n rest ih =>
    intro acc r h
    rw [List.foldl_cons] at h
    rcases hsel : selStep acc n with _ | d
    · have := selStep_isSome acc n; rw [hsel] at this; simp at this
    · rw [hsel] at h
      obtain ⟨hmem, hacc, hall⟩ := ih (some d) r h
      obtain ⟨hd1, hd2, hd3⟩ := selStep_cases acc n d hsel
      have hrd : r.f ≤ d.f := hacc d rfl
      constructor
      · rcases hmem with hmem | hmem
        · cases hmem
          rcases hd1 with h1 | h1
          · right; rw [h1]; exact List.mem_cons_self _ _
          · exact Or.inl h1
        · right; exact List.mem_cons_of_mem _ hmem
      constructor
      · intro a ha
        calc r.f ≤ d.f := hrd
          _ ≤ a.f := hd2 a ha
      · intro x hx
        rcases List.mem_cons.mp hx with rfl | hx
        · calc r.f ≤ d.f := hrd
            _ ≤ x.f := hd3
        · exact hall x hx

theorem selectMin_spec {l : List PathNode} {r : PathNode} (h : selectMin l = some r) :
    r ∈ l ∧ ∀ x ∈ l, r.f ≤ x.f := by
  obtain ⟨hmem, _, hall⟩ := foldl_selStep_spec l none r h
  rcases hmem with hmem | hmem
  · cases hmem
  · exact ⟨hmem, hall⟩

theorem mem_openErase {l : List PathNode} {nid : String} {pn : PathNode}
    (h : pn ∈ openErase l nid) : pn ∈ l := by
  induction l with
  | nil => simpa [openErase] using h
  | cons p rest ih =>
    rw [openErase] at h
    by_cases hp : p.nodeId = nid
    · rw [if_pos hp] at h
      exact List.mem_cons_of_mem _ h
    · rw [if_neg hp] at h
      rcases List.mem_cons.mp h with rfl | h
      · exact List.mem_cons_self _ _
      · exact List.mem_cons_of_mem _ (ih h)

theorem openErase_mem_of_ne {l : List PathNode} {nid : String} {pn : PathNode}
    (h : pn ∈ l) (hne : pn.nodeId ≠ nid) : pn ∈ openErase l nid := by
  induction l with
  | nil => simp at h
  | cons p rest ih =>
    rw [openErase]
    by_cases hp : p.nodeId = nid
    · rw [if_pos hp]
      rcases List.mem_cons.mp h with rfl | h
      · exact absurd hp hne
      · exact h
    · rw [if_neg hp]
      rcases List.mem_cons.mp h with rfl | h
      · exact List.mem_cons_self _ _
      · exact List.mem_cons_of_mem _ (ih h)

theorem openErase_sublist (l : List PathNode) (nid : String) :
    (openErase l nid).Sublist l := by
  induction l with
  | nil => simp [openErase]
  | cons p rest ih =>
    rw [openErase]
    by_cases hp : p.nodeId = nid
    · rw [if_pos hp]
      exact List.sublist_cons_of_sublist p (List.Sublist.refl rest)
    · rw [if_neg hp]
      exact List.Sublist.cons₂ p ih

theorem openErase_nodup {l : List PathNode} {nid : String}
    (h : (l.map PathNode.nodeId).Nodup) :
    ((openErase l nid).map PathNode.nodeId).Nodup :=
  List.Nodup.sublist (List.Sublist.map _ (openErase_sublist l nid)) h

theorem openErase_ne {l : List PathNode} {nid : String}
    (h : (l.map PathNode.nodeId).Nodup) :
    ∀ pn ∈ openErase l nid, pn.nodeId ≠ nid := by
  induction l with
  | nil => simp [openErase]
  | cons p rest ih =>
    rw [openErase]
    rw [List.map_cons, List.nodup_cons] at h
    by_cases hp : p.nodeId = nid
    · rw [if_pos hp]
      intro pn hpn hid
      apply h.1
      rw [hp, ← hid]
      exact List.mem_map_of_mem _ hpn
    · rw [if_neg hp]
      intro pn hpn hid
      rcases List.mem_cons.mp hpn with rfl | hpn
      · exact hp hid
      · exact ih h.2 pn hpn hid

theorem mem_openReplace {l : List PathNode} {new pn : PathNode}
    (h : pn ∈ openReplace l new) : pn = new ∨ pn ∈ l := by
  induction l with
  | nil =>
    rw [openReplace] at h
    rcases List.mem_singleton.mp h with rfl
    exact Or.inl rfl
  | cons p rest ih =>
    rw [openReplace] at h
    by_cases hp : p.nodeId = new.nodeId
    · rw [if_pos hp] at h
      rcases List.mem_cons.mp h with rfl | h
      · exact Or.inl rfl
      · exact Or.inr (List.mem_cons_of_mem _ h)
    · rw [if_neg hp] at h
      rcases List.mem_cons.mp h with rfl | h
      · exact Or.inr (List.mem_cons_self _ _)
      · rcases ih h with h | h
        · exact Or.inl h
        · exact Or.inr (List.mem_cons_of_mem _ h)

theorem self_mem_openReplace (l : List PathNode) (new : PathNode) :
    new ∈ openReplace l new := by
  induction l with
  | nil => rw [openReplace]; exact List.mem_singleton.mpr rfl
  | cons p rest ih =>
    rw [openReplace]
    by_cases hp : p.nodeId = new.nodeId
    · rw [if_pos hp]; exact List.mem_cons_self _ _
    · rw [if_neg hp]; exact List.mem_cons_of_mem _ ih

theorem openReplace_mem_of_ne {l : List PathNode} {new pn : PathNode}
    (h : pn ∈ l) (hne : pn.nodeId ≠ new.nodeId) : pn ∈ openReplace l new := by
  induction l with
  | nil => simp at h
  | cons p rest ih =>
    rw [openReplace]
    by_cases hp : p.nodeId = new.nodeId
    · rw [if_pos hp]
      rcases List.mem_cons.mp h with rfl | h
      · exact absurd hp hne
      · exact List.mem_cons_of_mem _ h
    · rw [if_neg hp]
      rcases List.mem_cons.mp h with rfl | h
      · exact List.mem_cons_self _ _
      · exact List.mem_cons_of_mem _ (ih h)

theorem openReplace_ids {l : List PathNode} {new : PathNode} {x : String}
    (h : x ∈ (openReplace l new).map PathNode.nodeId) :
    x = new.nodeId ∨ x ∈ l.map PathNode.nodeId := by
  rcases List.mem_map.mp h with ⟨pn, hpn, rfl⟩
  rcases mem_openReplace hpn with rfl | hpn
  · exact Or.inl rfl
  · exact Or.inr (List.mem_map_of_mem _ hpn)

theorem openReplace_nodup {l : List PathNode} {new : PathNode}
    (h : (l.map PathNode.nodeId).Nodup) :
    ((openReplace l new).map PathNode.nodeId).Nodup := by
  induction l with
  | nil => simp [openReplace]
  | cons p rest ih =>
    rw [List.map_cons, List.nodup_cons] at h
    rw [openReplace]
    by_cases hp : p.nodeId = new.nodeId
    · rw [if_pos hp, List.map_cons, List.nodup_cons]
      exact ⟨by rw [← hp]; exact h.1, h.2⟩
    · rw [if_neg hp, List.map_cons, List.nodup_cons]
      constructor
      · intro hmem
        rcases openReplace_ids hmem with h1 | h1
        · exact hp h1
        · exact h.1 h1
      · exact ih h.2

theorem openLookup_spec {l : List PathNode} {nid : String} {ex : PathNode}
    (h : openLookup l nid = some ex) : ex ∈ l ∧ ex.nodeId = nid := by
  induction l with
  | nil => simp [openLookup] at h
  | cons p rest ih =>
    rw [openLookup] at h
    by_cases hp : p.nodeId = nid
    · rw [if_pos hp] at h
      cases h
      exact ⟨List.mem_cons_self _ _, hp⟩
    · rw [if_neg hp] at h
      obtain ⟨h1, h2⟩ := ih h
      exact ⟨List.mem_cons_of_mem _ h1, h2⟩

theorem openLookup_none {l : List PathNode} {nid : String}
    (h : openLookup l nid = none) : ∀ pn ∈ l, pn.nodeId ≠ nid := by
  induction l with
  | nil => simp
  | cons p rest ih =>
    rw [openLookup] at h
    by_cases hp : p.nodeId = nid
    · rw [if_pos hp] at h; cases h
    · rw [if_neg hp] at h
      intro pn hpn
      rcases List.mem_cons.mp hpn with rfl | hpn
      · exact hp
      · exact ih h pn hpn

theorem openLookup_unique {l : List PathNode} {nid : String} {ex pn : PathNode}
    (hnd : (l.map PathNode.nodeId).Nodup) (h : openLookup l nid = some ex)
    (hpn : pn ∈ l) (hid : pn.nodeId = nid) : pn = ex := by
  induction l with
  | nil => simp at hpn
  | cons p rest ih =>
    rw [List.map_cons, List.nodup_cons] at hnd
    rw [openLookup] at h
    by_cases hp : p.nodeId = nid
    · rw [if_pos hp] at h
      cases h
      rcases List.mem_cons.mp hpn with rfl | hpn
      · rfl
      · exfalso
        apply hnd.1
        rw [hp, ← hid]
        exact List.mem_map_of_mem _ hpn
    · rw [if_neg hp] at h
      rcases List.mem_cons.mp hpn with rfl | hpn
      · exact absurd hid hp
      · exact ih hnd.2 h hpn

/-! ### Soundness of parent chains and heuristic consistency -/

/-- The heuristic value the planner attaches to a node id (0 on a missing node,
which `WF` rules out). -/
noncomputable def hvalAt (net : RoadNetwork) (goalNode : Node) (nid : String) : ℝ :=
  match nodesGet net nid with
  | some nd => heuristic nd.x nd.y goalNode.x goalNode.y
  | none => 0

/-- Invariant of the `PathNode` records the search builds: the parent chain is
an admissible walk from the start, `g` is its accumulated cost, `h` the
heuristic of the node, and `f = g + h`. -/
def ChainOK (net : RoadNetwork) (opts : PathOptions) (startId : String) (goalNode : Node) :
    PathNode → Prop
  | .mk nid g h f parent edge =>
    (nodesGet net nid).isSome = true ∧ h = hvalAt net goalNode nid ∧ f = g + h ∧
    match parent, edge with
    | none, none => nid = startId ∧ g = 0
    | some p, some e =>
      ChainOK net opts startId goalNode p ∧
      edgesGet net e.id = some e ∧
      (e.blocked = false ∨ opts.ignoreBlocked = true) ∧
      (e.«from» = p.nodeId ∨ e.«to» = p.nodeId) ∧
      nid = getOtherNode e p.nodeId ∧
      g = p.g + segCost net opts e
    | none, some _ => False
    | some _, none => False

theorem chain_sound (net : RoadNetwork) (opts : PathOptions) (startId : String)
    (goalNode : Node) :
    ∀ pn : PathNode, ChainOK net opts startId goalNode pn →
      ValidWalk net opts startId (reconstructPath pn) pn.nodeId ∧
      routeCost net opts (reconstructPath pn) = pn.g
  | .mk nid g h f none none => by
    intro hck
    rw [ChainOK] at hck
    obtain ⟨_, _, _, h1, h2⟩ := hck
    subst h1
    subst h2
    refine ⟨?_, ?_⟩
    · show ValidWalk net opts nid (reconstructPath (.mk nid 0 h f none none)) _
      rw [reconstructPath]
      exact ValidWalk.nil nid
    · rw [reconstructPath]
      simp [routeCost]
  | .mk nid g h f (some p) (some e) => by
    intro hck
    rw [ChainOK] at hck
    obtain ⟨_, _, _, hp, he, hb, hend, hnid, hg⟩ := hck
    obtain ⟨ihw, ihc⟩ := chain_sound net opts startId goalNode p hp
    have hrp : reconstructPath (.mk nid g h f (some p) (some e)) = reconstructPath p ++ [e] := by
      rw [reconstructPath]
    have hstep : ValidWalk net opts p.nodeId [e] (getOtherNode e p.nodeId) :=
      ValidWalk.cons _ e [] _ he hend hb (ValidWalk.nil _)
    refine ⟨?_, ?_⟩
    · rw [hrp]
      show ValidWalk net opts startId _ (PathNode.mk nid g h f (some p) (some e)).nodeId
      rw [PathNode.nodeId_mk, hnid]
      exact ihw.append hstep
    · rw [hrp, routeCost_append, routeCost_cons, routeCost_nil, ihc, PathNode.g_mk, hg]
      ring
  | .mk nid g h f none (some e) => by
    intro hck
    rw [ChainOK] at hck
    exact (hck.2.2.2 : False).elim
  | .mk nid g h f (some p) none => by
    intro hck
    rw [ChainOK] at hck
    exact (hck.2.2.2 : False).elim

theorem hvalAt_eq {net : RoadNetwork} {goalNode : Node} {nid : String} {nd : Node}
    (h : nodesGet net nid = some nd) :
    hvalAt net goalNode nid = heuristic nd.x nd.y goalNode.x goalNode.y := by
  rw [hvalAt, h]

theorem hvalAt_nonneg (net : RoadNetwork) (goalNode : Node) (nid : String) :
    0 ≤ hvalAt net goalNode nid := by
  rw [hvalAt]
  rcases hnd : nodesGet net nid with _ | nd
  · exact le_refl 0
  · show (0 : ℝ) ≤ heuristic nd.x nd.y goalNode.x goalNode.y
    rw [heuristic_eq_distFn]
    exact distFn_nonneg _ _ _ _

theorem hvalAt_goal {net : RoadNetwork} {goalId : String} {goalNode : Node}
    (hg : nodesGet net goalId = some goalNode) : hvalAt net goalNode goalId = 0 := by
  rw [hvalAt_eq hg, heuristic_eq_distFn, distFn_self]

/-- Per-edge consistency of the heuristic: crossing an admissible segment can
lower the straight-line distance to the goal by at most the segment's cost. -/
theorem hvalAt_consistent {net : RoadNetwork} (hwf : WF net) (opts : PathOptions)
    (goalNode : Node) {e : Edge} (he : edgesGet net e.id = some e) {s : String}
    (hend : e.«from» = s ∨ e.«to» = s) :
    hvalAt net goalNode s ≤ segCost net opts e + hvalAt net goalNode (getOtherNode e s) := by
  have hmem := listGet_mem he
  have ha := hwf.endA (e.id, e) hmem
  have hb := hwf.endB (e.id, e) hmem
  rcases haeq : nodesGet net e.«from» with _ | a
  · rw [haeq] at ha; simp at ha
  rcases hbeq : nodesGet net e.«to» with _ | b
  · rw [hbeq] at hb; simp at hb
  have hsnow : 0 ≤ e.snow := hwf.snowNonneg (e.id, e) hmem
  have hpen : (0 : ℝ) ≤ (((if opts.ignoreSnow then 0 else min (e.snow * 0.5) 5 * 10 : ℚ)) : ℝ) := by
    exact_mod_cast snowPenalty_nonneg opts hsnow
  have hseg : segCost net opts e =
      distFn a.x a.y b.x b.y +
        (((if opts.ignoreSnow then 0 else min (e.snow * 0.5) 5 * 10 : ℚ)) : ℝ) := by
    rw [segCost, haeq, hbeq]
  rw [getOtherNode]
  by_cases hfs : e.«from» = s
  · rw [if_pos hfs]
    rw [← hfs, hvalAt_eq haeq, hvalAt_eq hbeq, heuristic_eq_distFn, heuristic_eq_distFn, hseg]
    have := distFn_triangle a.x a.y b.x b.y goalNode.x goalNode.y
    linarith
  · rw [if_neg hfs]
    have hts : e.«to» = s := hend.resolve_left hfs
    rw [← hts, hvalAt_eq hbeq, hvalAt_eq haeq, heuristic_eq_distFn, heuristic_eq_distFn, hseg]
    have h1 := distFn_triangle b.x b.y a.x a.y goalNode.x goalNode.y
    have h2 : distFn b.x b.y a.x a.y = distFn a.x a.y b.x b.y := distFn_symm _ _ _ _
    linarith

/-- Along any admissible walk, the heuristic of the start exceeds the walk's
cost plus the heuristic of the end by at most zero. -/
theorem hvalAt_walk_bound {net : RoadNetwork} (hwf : WF net) {opts : PathOptions}
    (goalNode : Node) {v t : String} {P : List Edge}
    (h : ValidWalk net opts v P t) :
    hvalAt net goalNode v ≤ routeCost net opts P + hvalAt net goalNode t := by
  induction h with
  | nil => rw [routeCost_nil]; linarith
  | cons s e rest t' he hend hb hrest ih =>
    have h1 := hvalAt_consistent hwf opts goalNode he hend
    rw [routeCost_cons]
    linarith

/-! ### The A* loop invariant -/

theorem chain_f (net : RoadNetwork) (opts : PathOptions) (startId : String) (goalNode : Node) :
    ∀ pn : PathNode, ChainOK net opts startId goalNode pn →
      pn.h = hvalAt net goalNode pn.nodeId ∧ pn.f = pn.g + pn.h ∧
        (nodesGet net pn.nodeId).isSome
  | .mk nid g h f parent edge => by
    intro hck
    rw [ChainOK.eq_def] at hck
    exact ⟨hck.2.1, hck.2.2.1, hck.1⟩

theorem open_id_unique {op : List PathNode} (hnd : (op.map PathNode.nodeId).Nodup)
    {pn qn : PathNode} (hp : pn ∈ op) (hq : qn ∈ op) (hid : pn.nodeId = qn.nodeId) :
    pn = qn := by
  induction op with
  | nil => simp at hp
  | cons a rest ih =>
    rw [List.map_cons, List.nodup_cons] at hnd
    rcases List.mem_cons.mp hp with rfl | hp2
    · rcases List.mem_cons.mp hq with rfl | hq2
      · rfl
      · exfalso
        apply hnd.1
        rw [hid]
        exact List.mem_map_of_mem _ hq2
    · rcases List.mem_cons.mp hq with rfl | hq2
      · exfalso
        apply hnd.1
        rw [← hid]
        exact List.mem_map_of_mem _ hp2
      · exact ih hnd.2 hp2 hq2

/-- The loop invariant of the A* search.  `gc` is a ghost assignment of a
certified lower bound to every closed node (the `g` it was expanded with). -/
structure AInv (net : RoadNetwork) (opts : PathOptions) (startId goalId : String)
    (goalNode : Node) (op : List PathNode) (closed : List String) (gc : String → ℝ) :
    Prop where
  sound : ∀ pn ∈ op, ChainOK net opts startId goalNode pn
  nodup : (op.map PathNode.nodeId).Nodup
  disj : ∀ pn ∈ op, pn.nodeId ∉ closed
  startw : (∃ pn ∈ op, pn.nodeId = startId ∧ pn.g ≤ 0) ∨ startId ∈ closed
  gnonneg : ∀ pn ∈ op, 0 ≤ pn.g
  gcnonneg : ∀ t ∈ closed, 0 ≤ gc t
  closedLB : ∀ t ∈ closed, ∀ P, ValidWalk net opts startId P t → gc t ≤ routeCost net opts P
  relaxedC : ∀ t ∈ closed, ∀ e : Edge, edgesGet net e.id = some e →
      (e.blocked = false ∨ opts.ignoreBlocked = true) → (e.«from» = t ∨ e.«to» = t) →
      getOtherNode e t ∈ closed → gc (getOtherNode e t) ≤ gc t + segCost net opts e
  relaxedO : ∀ t ∈ closed, ∀ e : Edge, edgesGet net e.id = some e →
      (e.blocked = false ∨ opts.ignoreBlocked = true) → (e.«from» = t ∨ e.«to» = t) →
      getOtherNode e t ∉ closed →
      ∃ pn ∈ op, pn.nodeId = getOtherNode e t ∧ pn.g ≤ gc t + segCost net opts e
  fmono : ∀ t ∈ closed, ∀ pn ∈ op, gc t + hvalAt net goalNode t ≤ pn.f
  closedNode : ∀ t ∈ closed, (nodesGet net t).isSome
  goalOpen : goalId ∉ closed

/-- Every admissible walk from a closed node to a non-closed node passes
through an open node whose `g` is at most the cost of the walk's prefix. -/
theorem frontier_aux {net : RoadNetwork} {opts : PathOptions} {startId goalId : String}
    {goalNode : Node} {op : List PathNode} {closed : List String} {gc : String → ℝ}
    (inv : AInv net opts startId goalId goalNode op closed gc) :
    ∀ {u P t}, ValidWalk net opts u P t → u ∈ closed → t ∉ closed →
      ∀ c : ℝ, gc u ≤ c →
      ∃ pn ∈ op, ∃ P1 P2, P = P1 ++ P2 ∧ ValidWalk net opts u P1 pn.nodeId ∧
        ValidWalk net opts pn.nodeId P2 t ∧ pn.g ≤ c + routeCost net opts P1 := by
  intro u P t hwalk
  induction hwalk with
  | nil s =>
    intro hu ht
    exact absurd hu ht
  | cons s e rest t' he hend hb hrest ih =>
    intro hu ht c hc
    by_cases hv : getOtherNode e s ∈ closed
    · have h1 := inv.relaxedC s hu e he hb hend hv
      obtain ⟨pn, hpn, P1, P2, hsplit, hw1, hw2, hcost⟩ :=
        ih hv ht (c + segCost net opts e) (by linarith)
      refine ⟨pn, hpn, e :: P1, P2, by rw [hsplit]; rfl, ?_, hw2, ?_⟩
      · exact ValidWalk.cons _ e _ _ he hend hb hw1
      · rw [routeCost_cons]
        linarith
    · obtain ⟨pn, hpn, hid, hg⟩ := inv.relaxedO s hu e he hb hend hv
      refine ⟨pn, hpn, [e], rest, rfl, ?_, ?_, ?_⟩
      · rw [hid]
        exact ValidWalk.cons _ e _ _ he hend hb (ValidWalk.nil _)
      · rw [hid]
        exact hrest
      · rw [routeCost_cons, routeCost_nil]
        linarith

/-- Every admissible walk from the start to a non-closed node passes through an
open node whose `g` is at most the cost of the walk's prefix. -/
theorem frontier {net : RoadNetwork} {opts : PathOptions} {startId goalId : String}
    {goalNode : Node} {op : List PathNode} {closed : List String} {gc : String → ℝ}
    (inv : AInv net opts startId goalId goalNode op closed gc) :
    ∀ {P t}, ValidWalk net opts startId P t → t ∉ closed →
      ∃ pn ∈ op, ∃ P1 P2, P = P1 ++ P2 ∧ ValidWalk net opts startId P1 pn.nodeId ∧
        ValidWalk net opts pn.nodeId P2 t ∧ pn.g ≤ routeCost net opts P1 := by
  intro P t hwalk ht
  by_cases hs : startId ∈ closed
  · have h0 : gc startId ≤ 0 := by
      have := inv.closedLB startId hs [] (ValidWalk.nil _)
      rwa [routeCost_nil] at this
    obtain ⟨pn, hpn, P1, P2, hsplit, hw1, hw2, hcost⟩ := frontier_aux inv hwalk hs ht 0 h0
    exact ⟨pn, hpn, P1, P2, hsplit, hw1, hw2, by linarith⟩
  · rcases inv.startw with ⟨pn, hpn, hid, hg⟩ | h
    · refine ⟨pn, hpn, [], P, rfl, ?_, ?_, ?_⟩
      · rw [hid]
        exact ValidWalk.nil _
      · rw [hid]
        exact hwalk
      · rw [routeCost_nil]
        linarith
    · exact absurd h hs

/-- The node popped by the lowest-f scan carries an optimal `g`: no admissible
walk from the start reaches it more cheaply. -/
theorem pop_opt {net : RoadNetwork} {opts : PathOptions} {startId goalId : String}
    {goalNode : Node} {op : List PathNode} {closed : List String} {gc : String → ℝ}
    (hwf : WF net) (inv : AInv net opts startId goalId goalNode op closed gc)
    {cur : PathNode} (hsel : selectMin op = some cur) :
    ∀ P, ValidWalk net opts startId P cur.nodeId → cur.g ≤ routeCost net opts P := by
  intro P hP
  obtain ⟨hcur, hmin⟩ := selectMin_spec hsel
  have hnc : cur.nodeId ∉ closed := inv.disj cur hcur
  obtain ⟨pn, hpn, P1, P2, rfl, hw1, hw2, hg1⟩ := frontier inv hP hnc
  obtain ⟨hhc, hfc, _⟩ := chain_f net opts startId goalNode cur (inv.sound cur hcur)
  obtain ⟨hhp, hfp, _⟩ := chain_f net opts startId goalNode pn (inv.sound pn hpn)
  have hmin' : cur.f ≤ pn.f := hmin pn hpn
  have hh := hvalAt_walk_bound hwf goalNode hw2
  rw [routeCost_append]
  have h1 : cur.g + hvalAt net goalNode cur.nodeId ≤
      pn.g + hvalAt net goalNode pn.nodeId := by
    rw [← hhc, ← hhp, ← hfc, ← hfp]
    exact hmin'
  linarith

/-! ### Characterizing one expansion step -/

/-- The snow penalty the planner adds to an edge's cost, as a real. -/
noncomputable def penOf (opts : PathOptions) (e : Edge) : ℝ :=
  (((if opts.ignoreSnow then 0 else min (e.snow * 0.5) 5 * 10 : ℚ)) : ℝ)

theorem penOf_nonneg {net : RoadNetwork} (hwf : WF net) (opts : PathOptions) {e : Edge}
    (he : edgesGet net e.id = some e) : 0 ≤ penOf opts e := by
  have hsnow : 0 ≤ e.snow := hwf.snowNonneg (e.id, e) (listGet_mem he)
  rw [penOf]
  exact_mod_cast snowPenalty_nonneg opts hsnow

theorem segCost_eq {net : RoadNetwork} {opts : PathOptions} {e : Edge} {a b : Node}
    (ha : nodesGet net e.«from» = some a) (hb : nodesGet net e.«to» = some b) :
    segCost net opts e = distFn a.x a.y b.x b.y + penOf opts e := by
  rw [segCost, ha, hb, penOf]

/-- The cost `findPath` computes from the current node's and the neighbor's
positions coincides with the segment cost computed from the edge's endpoints. -/
theorem edgeCost_eq_segCost {net : RoadNetwork} {opts : PathOptions} {e : Edge}
    {cid : String} {cn nb : Node} (hend : e.«from» = cid ∨ e.«to» = cid)
    (hc : nodesGet net cid = some cn) (hn : nodesGet net (getOtherNode e cid) = some nb) :
    distFn cn.x cn.y nb.x nb.y + penOf opts e = segCost net opts e := by
  by_cases hfs : e.«from» = cid
  · have hgo : getOtherNode e cid = e.«to» := by rw [getOtherNode, if_pos hfs]
    rw [hgo] at hn
    rw [segCost_eq (by rw [hfs]; exact hc) hn]
  · have hts : e.«to» = cid := hend.resolve_left hfs
    have hgo : getOtherNode e cid = e.«from» := by rw [getOtherNode, if_neg hfs]
    rw [hgo] at hn
    rw [segCost_eq hn (by rw [hts]; exact hc), distFn_symm]

/-- The node record the expansion inserts for a neighbor. -/
noncomputable def succNode (opts : PathOptions) (goalNode : Node) (cur : PathNode)
    (e : Edge) (neighbor curNode : Node) : PathNode :=
  PathNode.mk (getOtherNode e cur.nodeId)
    (cur.g + (distFn curNode.x curNode.y neighbor.x neighbor.y + penOf opts e))
    (heuristic neighbor.x neighbor.y goalNode.x goalNode.y)
    (cur.g + (distFn curNode.x curNode.y neighbor.x neighbor.y + penOf opts e) +
      heuristic neighbor.x neighbor.y goalNode.x goalNode.y)
    (some cur) (some e)

/-- One expansion step either leaves the open set unchanged or replaces the
entry of an admissible, non-closed neighbor with the freshly relaxed record. -/
theorem option_cases {α : Type} (o : Option α) : o = none ∨ ∃ a, o = some a := by
  cases o
  · exact Or.inl rfl
  · exact Or.inr ⟨_, rfl⟩

theorem expandEdge_cases (net : RoadNetwork) (opts : PathOptions) (goalNode : Node)
    (closed' : List String) (cur : PathNode) (base : List PathNode) (eid : String) :
    expandEdge net opts goalNode closed' cur base eid = base ∨
    ∃ (e : Edge) (neighbor curNode : Node),
      edgesGet net eid = some e ∧
      ¬(e.blocked = true ∧ opts.ignoreBlocked = false) ∧
      getOtherNode e cur.nodeId ∉ closed' ∧
      nodesGet net (getOtherNode e cur.nodeId) = some neighbor ∧
      nodesGet net cur.nodeId = some curNode ∧
      (∀ ex, openLookup base (getOtherNode e cur.nodeId) = some ex →
        ¬ ex.g ≤ (succNode opts goalNode cur e neighbor curNode).g) ∧
      expandEdge net opts goalNode closed' cur base eid =
        openReplace base (succNode opts goalNode cur e neighbor curNode) := by
  rcases option_cases (edgesGet net eid) with he | ⟨e, he⟩
  · left
    simp only [expandEdge, he]
  by_cases hbl : e.blocked = true ∧ opts.ignoreBlocked = false
  · left
    simp only [expandEdge, he, if_pos hbl]
  by_cases hcl : getOtherNode e cur.nodeId ∈ closed'
  · left
    simp only [expandEdge, he, if_neg hbl, if_pos hcl]
  rcases option_cases (nodesGet net (getOtherNode e cur.nodeId)) with hnb | ⟨neighbor, hnb⟩
  · left
    simp only [expandEdge, he, if_neg hbl, if_neg hcl, hnb]
  rcases option_cases (nodesGet net cur.nodeId) with hcn | ⟨curNode, hcn⟩
  · left
    simp only [expandEdge, he, if_neg hbl, if_neg hcl, hnb, hcn]
  rcases option_cases (openLookup base (getOtherNode e cur.nodeId)) with hlk | ⟨ex, hlk⟩
  · right
    refine ⟨e, neighbor, curNode, he, hbl, hcl, hnb, hcn, ?_, ?_⟩
    · intro ex2 hex2
      rw [hlk] at hex2
      cases hex2
    · simp only [expandEdge, he, if_neg hbl, if_neg hcl, hnb, hcn, hlk]
      rfl
  by_cases hle : ex.g ≤ (succNode opts goalNode cur e neighbor curNode).g
  · left
    have hle2 : ex.g ≤ cur.g + (distFn curNode.x curNode.y neighbor.x neighbor.y +
        (((if opts.ignoreSnow then 0 else min (e.snow * 0.5) 5 * 10 : ℚ)) : ℝ)) := hle
    simp only [expandEdge, he, if_neg hbl, if_neg hcl, hnb, hcn, hlk, if_pos hle2]
  · right
    refine ⟨e, neighbor, curNode, he, hbl, hcl, hnb, hcn, ?_, ?_⟩
    · intro ex2 hex2
      rw [hlk] at hex2
      cases hex2
      exact hle
    · have hle2 : ¬ ex.g ≤ cur.g + (distFn curNode.x curNode.y neighbor.x neighbor.y +
          (((if opts.ignoreSnow then 0 else min (e.snow * 0.5) 5 * 10 : ℚ)) : ℝ)) := hle
      simp only [expandEdge, he, if_neg hbl, if_neg hcl, hnb, hcn, hlk, if_neg hle2]
      rfl

/-- When all guards of an expansion step pass, the step's result contains an
entry for the neighbor at most as expensive as the fresh relaxation. -/
theorem expandEdge_step_complete {net : RoadNetwork} {opts : PathOptions} {goalNode : Node}
    {closed' : List String} {cur : PathNode} {base : List PathNode} {eid : String}
    {e : Edge} {neighbor curNode : Node}
    (he : edgesGet net eid = some e)
    (hbl : ¬(e.blocked = true ∧ opts.ignoreBlocked = false))
    (hcl : getOtherNode e cur.nodeId ∉ closed')
    (hnb : nodesGet net (getOtherNode e cur.nodeId) = some neighbor)
    (hcn : nodesGet net cur.nodeId = some curNode) :
    ∃ pn ∈ expandEdge net opts goalNode closed' cur base eid,
      pn.nodeId = getOtherNode e cur.nodeId ∧
      pn.g ≤ (succNode opts goalNode cur e neighbor curNode).g := by
  rcases option_cases (openLookup base (getOtherNode e cur.nodeId)) with hlk | ⟨ex, hlk⟩
  · refine ⟨succNode opts goalNode cur e neighbor curNode, ?_, rfl, le_refl _⟩
    have heq : expandEdge net opts goalNode closed' cur base eid =
        openReplace base (succNode opts goalNode cur e neighbor curNode) := by
      simp only [expandEdge, he, if_neg hbl, if_neg hcl, hnb, hcn, hlk]
      rfl
    rw [heq]
    exact self_mem_openReplace _ _
  · by_cases hle : ex.g ≤ (succNode opts goalNode cur e neighbor curNode).g
    · have hle2 : ex.g ≤ cur.g + (distFn curNode.x curNode.y neighbor.x neighbor.y +
          (((if opts.ignoreSnow then 0 else min (e.snow * 0.5) 5 * 10 : ℚ)) : ℝ)) := hle
      have heq : expandEdge net opts goalNode closed' cur base eid = base := by
        simp only [expandEdge, he, if_neg hbl, if_neg hcl, hnb, hcn, hlk, if_pos hle2]
      obtain ⟨hmem, hid⟩ := openLookup_spec hlk
      exact ⟨ex, by rw [heq]; exact hmem, hid, hle⟩
    · have hle2 : ¬ ex.g ≤ cur.g + (distFn curNode.x curNode.y neighbor.x neighbor.y +
          (((if opts.ignoreSnow then 0 else min (e.snow * 0.5) 5 * 10 : ℚ)) : ℝ)) := hle
      have heq : expandEdge net opts goalNode closed' cur base eid =
          openReplace base (succNode opts goalNode cur e neighbor curNode) := by
        simp only [expandEdge, he, if_neg hbl, if_neg hcl, hnb, hcn, hlk, if_neg hle2]
        rfl
      refine ⟨succNode opts goalNode cur e neighbor curNode, ?_, rfl, le_refl _⟩
      rw [heq]
      exact self_mem_openReplace _ _

theorem expand_step_nodup {net : RoadNetwork} {opts : PathOptions} {goalNode : Node}
    {closed' : List String} {cur : PathNode} {base : List PathNode} {eid : String}
    (hnd : (base.map PathNode.nodeId).Nodup) :
    ((expandEdge net opts goalNode closed' cur base eid).map PathNode.nodeId).Nodup := by
  rcases expandEdge_cases net opts goalNode closed' cur base eid with heq |
    ⟨e, nb, cn, _, _, _, _, _, _, heq⟩
  · rw [heq]; exact hnd
  · rw [heq]; exact openReplace_nodup hnd

theorem expand_step_persist {net : RoadNetwork} {opts : PathOptions} {goalNode : Node}
    {closed' : List String} {cur : PathNode} {base : List PathNode} {eid : String}
    (hnd : (base.map PathNode.nodeId).Nodup) {v : String} {b : ℝ}
    (h : ∃ pn ∈ base, pn.nodeId = v ∧ pn.g ≤ b) :
    ∃ pn ∈ expandEdge net opts goalNode closed' cur base eid,
      pn.nodeId = v ∧ pn.g ≤ b := by
  obtain ⟨pn, hpn, hid, hg⟩ := h
  rcases expandEdge_cases net opts goalNode closed' cur base eid with heq |
    ⟨e, nb, cn, he, hbl, hcl, hnb, hcn, hlk, heq⟩
  · exact ⟨pn, by rw [heq]; exact hpn, hid, hg⟩
  · set new := succNode opts goalNode cur e nb cn with hnew
    by_cases hvw : v = new.nodeId
    · rcases option_cases (openLookup base new.nodeId) with hl | ⟨ex, hl⟩
      · exact absurd (hvw ▸ hid) (openLookup_none hl pn hpn)
      · have hex : pn = ex := openLookup_unique hnd hl hpn (hvw ▸ hid)
        have hlt := hlk ex hl
        refine ⟨new, by rw [heq]; exact self_mem_openReplace _ _, hvw.symm, ?_⟩
        have : new.g < ex.g := lt_of_not_le hlt
        rw [hex] at hg
        linarith
    · refine ⟨pn, ?_, hid, hg⟩
      rw [heq]
      exact openReplace_mem_of_ne hpn (by rw [hid]; exact hvw)

theorem expand_fold_nodup {net : RoadNetwork} {opts : PathOptions} {goalNode : Node}
    {closed' : List String} {cur : PathNode} :
    ∀ (eids : List String) (base : List PathNode),
      (base.map PathNode.nodeId).Nodup →
      ((eids.foldl (expandEdge net opts goalNode closed' cur) base).map PathNode.nodeId).Nodup := by
  intro eids
  induction eids with
  | nil => intro base h; exact h
  | cons eid rest ih =>
    intro base h
    rw [List.foldl_cons]
    exact ih _ (expand_step_nodup h)

theorem expand_fold_persist {net : RoadNetwork} {opts : PathOptions} {goalNode : Node}
    {closed' : List String} {cur : PathNode} :
    ∀ (eids : List String) (base : List PathNode),
      (base.map PathNode.nodeId).Nodup →
      ∀ (v : String) (b : ℝ), (∃ pn ∈ base, pn.nodeId = v ∧ pn.g ≤ b) →
      ∃ pn ∈ eids.foldl (expandEdge net opts goalNode closed' cur) base,
        pn.nodeId = v ∧ pn.g ≤ b := by
  intro eids
  induction eids with
  | nil => intro base _ v b h; exact h
  | cons eid rest ih =>
    intro base hnd v b h
    rw [List.foldl_cons]
    exact ih _ (expand_step_nodup hnd) v b (expand_step_persist hnd h)

theorem expand_fold_origin {net : RoadNetwork} {opts : PathOptions} {goalNode : Node}
    {closed' : List String} {cur : PathNode} :
    ∀ (eids : List String) (base : List PathNode) (pn : PathNode),
      pn ∈ eids.foldl (expandEdge net opts goalNode closed' cur) base →
      pn ∈ base ∨
      ∃ (e : Edge) (neighbor curNode : Node) (eid : String), eid ∈ eids ∧
        edgesGet net eid = some e ∧
        ¬(e.blocked = true ∧ opts.ignoreBlocked = false) ∧
        getOtherNode e cur.nodeId ∉ closed' ∧
        nodesGet net (getOtherNode e cur.nodeId) = some neighbor ∧
        nodesGet net cur.nodeId = some curNode ∧
        pn = succNode opts goalNode cur e neighbor curNode := by
  intro eids
  induction eids with
  | nil => intro base pn h; exact Or.inl h
  | cons eid rest ih =>
    intro base pn h
    rw [List.foldl_cons] at h
    rcases ih _ pn h with hbase | ⟨e, nb, cn, eid', hmem, hrest⟩
    · rcases expandEdge_cases net opts goalNode closed' cur base eid with heq |
        ⟨e, nb, cn, he, hbl, hcl, hnb, hcn, _, heq⟩
      · rw [heq] at hbase
        exact Or.inl hbase
      · rw [heq] at hbase
        rcases mem_openReplace hbase with rfl | hbase2
        · exact Or.inr ⟨e, nb, cn, eid, List.mem_cons_self _ _, he, hbl, hcl, hnb, hcn, rfl⟩
        · exact Or.inl hbase2
    · exact Or.inr ⟨e, nb, cn, eid', List.mem_cons_of_mem _ hmem, hrest⟩

theorem expand_fold_complete {net : RoadNetwork} {opts : PathOptions} {goalNode : Node}
    {closed' : List String} {cur : PathNode} :
    ∀ (eids : List String) (base : List PathNode),
      (base.map PathNode.nodeId).Nodup →
      ∀ eid ∈ eids, ∀ (e : Edge) (neighbor curNode : Node),
        edgesGet net eid = some e →
        ¬(e.blocked = true ∧ opts.ignoreBlocked = false) →
        getOtherNode e cur.nodeId ∉ closed' →
        nodesGet net (getOtherNode e cur.nodeId) = some neighbor →
        nodesGet net cur.nodeId = some curNode →
        ∃ pn ∈ eids.foldl (expandEdge net opts goalNode closed' cur) base,
          pn.nodeId = getOtherNode e cur.nodeId ∧
          pn.g ≤ (succNode opts goalNode cur e neighbor curNode).g := by
  intro eids
  induction eids with
  | nil => intro base _ eid h; simp at h
  | cons eid0 rest ih =>
    intro base hnd eid hmem e nb cn he hbl hcl hnb hcn
    rw [List.foldl_cons]
    rcases List.mem_cons.mp hmem with rfl | hmem2
    · have hstep : ∃ pn ∈ expandEdge net opts goalNode closed' cur base eid,
          pn.nodeId = getOtherNode e cur.nodeId ∧
          pn.g ≤ (succNode opts goalNode cur e nb cn).g :=
        expandEdge_step_complete he hbl hcl hnb hcn
      obtain ⟨pn, hpn, hid, hg⟩ := hstep
      exact expand_fold_persist rest _ (expand_step_nodup hnd) _ _ ⟨pn, hpn, hid, hg⟩
    · exact ih _ (expand_step_nodup hnd) eid hmem2 e nb cn he hbl hcl hnb hcn

/-! ### Preservation of the loop invariant -/

theorem blocked_iff {e : Edge} {opts : PathOptions} :
    ¬(e.blocked = true ∧ opts.ignoreBlocked = false) ↔
      (e.blocked = false ∨ opts.ignoreBlocked = true) := by
  cases hb : e.blocked <;> cases hi : opts.ignoreBlocked <;> simp

theorem adjGet_touches {net : RoadNetwork} (hwf : WF net) {k eid : String}
    (h : eid ∈ adjGet net k) :
    ∃ e, edgesGet net eid = some e ∧ (e.«from» = k ∨ e.«to» = k) := by
  rw [adjGet] at h
  rcases hl : listGet net.adjacency k with _ | l
  · rw [hl] at h
    simp at h
  · rw [hl] at h
    exact hwf.adjSound (k, l) (listGet_mem hl) eid h

theorem edgesGet_id {net : RoadNetwork} (hwf : WF net) {eid : String} {e : Edge}
    (h : edgesGet net eid = some e) : eid = e.id ∧ edgesGet net e.id = some e := by
  have hk := hwf.edgeKeys (eid, e) (listGet_mem h)
  exact ⟨hk, by rw [← hk]; exact h⟩

theorem other_present {net : RoadNetwork} (hwf : WF net) {e : Edge}
    (he : edgesGet net e.id = some e) (s : String) :
    (nodesGet net (getOtherNode e s)).isSome := by
  have hmem := listGet_mem he
  rcases getOtherNode_cases e s with h | h
  · rw [h]
    exact hwf.endA (e.id, e) hmem
  · rw [h]
    exact hwf.endB (e.id, e) hmem

theorem AInv_preserved {net : RoadNetwork} {opts : PathOptions} {startId goalId : String}
    {goalNode : Node} {op : List PathNode} {closed : List String} {gc : String → ℝ}
    (hwf : WF net) (hgoal : nodesGet net goalId = some goalNode)
    (inv : AInv net opts startId goalId goalNode op closed gc)
    {cur : PathNode} (hsel : selectMin op = some cur) (hng : cur.nodeId ≠ goalId) :
    AInv net opts startId goalId goalNode
      ((adjGet net cur.nodeId).foldl
        (expandEdge net opts goalNode (cur.nodeId :: closed) cur)
        (openErase op cur.nodeId))
      (cur.nodeId :: closed)
      (fun t => if t = cur.nodeId then cur.g else gc t) := by
  obtain ⟨hcur, hmin⟩ := selectMin_spec hsel
  have hcurck := inv.sound cur hcur
  obtain ⟨hcurh, hcurf, hcurnode⟩ := chain_f net opts startId goalNode cur hcurck
  have hcurf2 : cur.f = cur.g + hvalAt net goalNode cur.nodeId := by
    rw [hcurf, hcurh]
  have hcurnc : cur.nodeId ∉ closed := inv.disj cur hcur
  set base := openErase op cur.nodeId with hbasedef
  set closed' := cur.nodeId :: closed with hclosed
  set eids := adjGet net cur.nodeId with heidsdef
  have hbasend : (base.map PathNode.nodeId).Nodup := openErase_nodup inv.nodup
  have hbasene : ∀ pn ∈ base, pn.nodeId ≠ cur.nodeId := openErase_ne inv.nodup
  have hbasemem : ∀ pn ∈ base, pn ∈ op := fun pn h => mem_openErase h
  have hbaseof : ∀ pn ∈ op, pn.nodeId ≠ cur.nodeId → pn ∈ base :=
    fun pn h hne => openErase_mem_of_ne h hne
  -- the refined characterization of the nodes of the expanded open set
  have hins : ∀ pn ∈ eids.foldl (expandEdge net opts goalNode closed' cur) base,
      pn ∈ base ∨
      ∃ (e : Edge) (nb cn : Node),
        edgesGet net e.id = some e ∧
        (e.blocked = false ∨ opts.ignoreBlocked = true) ∧
        (e.«from» = cur.nodeId ∨ e.«to» = cur.nodeId) ∧
        getOtherNode e cur.nodeId ∉ closed' ∧
        nodesGet net (getOtherNode e cur.nodeId) = some nb ∧
        nodesGet net cur.nodeId = some cn ∧
        pn = succNode opts goalNode cur e nb cn := by
    intro pn hpn
    rcases expand_fold_origin eids base pn hpn with h |
      ⟨e, nb, cn, eid, hmem, he, hbl, hcl, hnb, hcn, rfl⟩
    · exact Or.inl h
    · obtain ⟨e2, he2, htouch⟩ := adjGet_touches hwf hmem
      rw [he] at he2
      cases he2
      obtain ⟨_, he'⟩ := edgesGet_id hwf he
      exact Or.inr ⟨e, nb, cn, he', blocked_iff.mp hbl, htouch, hcl, hnb, hcn, rfl⟩
  -- field computations for inserted successor records
  have hsuccg : ∀ (e : Edge) (nb cn : Node),
      (e.«from» = cur.nodeId ∨ e.«to» = cur.nodeId) →
      nodesGet net (getOtherNode e cur.nodeId) = some nb →
      nodesGet net cur.nodeId = some cn →
      (succNode opts goalNode cur e nb cn).g = cur.g + segCost net opts e := by
    intro e nb cn hend hnb hcn
    show cur.g + (distFn cn.x cn.y nb.x nb.y + penOf opts e) = _
    rw [edgeCost_eq_segCost hend hcn hnb]
  have hsucch : ∀ (e : Edge) (nb cn : Node),
      nodesGet net (getOtherNode e cur.nodeId) = some nb →
      (succNode opts goalNode cur e nb cn).h =
        hvalAt net goalNode (getOtherNode e cur.nodeId) := by
    intro e nb cn hnb
    show heuristic nb.x nb.y goalNode.x goalNode.y = _
    rw [hvalAt_eq hnb]
  have hsuccf : ∀ (e : Edge) (nb cn : Node),
      (e.«from» = cur.nodeId ∨ e.«to» = cur.nodeId) →
      nodesGet net (getOtherNode e cur.nodeId) = some nb →
      nodesGet net cur.nodeId = some cn →
      (succNode opts goalNode cur e nb cn).f =
        cur.g + segCost net opts e + hvalAt net goalNode (getOtherNode e cur.nodeId) := by
    intro e nb cn hend hnb hcn
    have h1 : (succNode opts goalNode cur e nb cn).f =
        (succNode opts goalNode cur e nb cn).g + (succNode opts goalNode cur e nb cn).h := rfl
    rw [h1, hsuccg e nb cn hend hnb hcn, hsucch e nb cn hnb]
  -- lower bound on the f-value of inserted records
  have hsuccfmono : ∀ (e : Edge) (nb cn : Node),
      edgesGet net e.id = some e →
      (e.blocked = false ∨ opts.ignoreBlocked = true) →
      (e.«from» = cur.nodeId ∨ e.«to» = cur.nodeId) →
      nodesGet net (getOtherNode e cur.nodeId) = some nb →
      nodesGet net cur.nodeId = some cn →
      cur.f ≤ (succNode opts goalNode cur e nb cn).f := by
    intro e nb cn he' hb hend hnb hcn
    rw [hsuccf e nb cn hend hnb hcn, hcurf2]
    have := hvalAt_consistent hwf opts goalNode he' hend
    linarith
  have hgcold : ∀ t, t ∈ closed → (if t = cur.nodeId then cur.g else gc t) = gc t := by
    intro t ht
    have hne : t ≠ cur.nodeId := fun hEq => hcurnc (hEq ▸ ht)
    rw [if_neg hne]
  have hgccur : (if cur.nodeId = cur.nodeId then cur.g else gc cur.nodeId) = cur.g :=
    if_pos rfl
  refine ⟨?_, ?_, ?_, ?_, ?_, ?_, ?_, ?_, ?_, ?_, ?_, ?_⟩
  · -- sound
    intro pn hpn
    rcases hins pn hpn with h | ⟨e, nb, cn, he', hb, hend, hcl, hnb, hcn, rfl⟩
    · exact inv.sound pn (hbasemem pn h)
    · rw [succNode, ChainOK]
      refine ⟨by rw [hnb]; rfl, ?_, rfl, hcurck, he', hb, hend, rfl, ?_⟩
      · rw [← hvalAt_eq hnb]
      · show cur.g + (distFn cn.x cn.y nb.x nb.y + penOf opts e) = _
        rw [edgeCost_eq_segCost hend hcn hnb]
  · -- nodup
    exact expand_fold_nodup eids base hbasend
  · -- disj
    intro pn hpn
    rcases hins pn hpn with h | ⟨e, nb, cn, _, _, _, hcl, _, _, rfl⟩
    · intro hmem
      rcases List.mem_cons.mp hmem with h1 | h1
      · exact hbasene pn h h1
      · exact inv.disj pn (hbasemem pn h) h1
    · exact hcl
  · -- startw
    rcases inv.startw with ⟨pn, hpn, hid, hg0⟩ | hin
    · by_cases hpc : pn.nodeId = cur.nodeId
      · right
        rw [hclosed, ← hid, hpc]
        exact List.mem_cons_self _ _
      · left
        exact expand_fold_persist eids base hbasend startId 0
          ⟨pn, hbaseof pn hpn hpc, hid, hg0⟩
    · right
      exact List.mem_cons_of_mem _ hin
  · -- gnonneg
    intro pn hpn
    rcases hins pn hpn with h | ⟨e, nb, cn, he', hb, hend, hcl, hnb, hcn, rfl⟩
    · exact inv.gnonneg pn (hbasemem pn h)
    · rw [hsuccg e nb cn hend hnb hcn]
      have h1 := inv.gnonneg cur hcur
      have h2 : 0 ≤ segCost net opts e := segCost_nonneg hwf he'
      linarith
  · -- gcnonneg
    intro t ht
    dsimp only
    rcases List.mem_cons.mp ht with rfl | ht2
    · rw [hgccur]
      exact inv.gnonneg cur hcur
    · rw [hgcold t ht2]
      exact inv.gcnonneg t ht2
  · -- closedLB
    intro t ht P hP
    dsimp only
    rcases List.mem_cons.mp ht with rfl | ht2
    · rw [hgccur]
      exact pop_opt hwf inv hsel P hP
    · rw [hgcold t ht2]
      exact inv.closedLB t ht2 P hP
  · -- relaxedC
    intro t ht e he' hb hend hvc
    dsimp only
    rcases List.mem_cons.mp ht with rfl | ht2
    · rw [hgccur]
      rcases List.mem_cons.mp hvc with hv1 | hv2
      · rw [hv1, hgccur]
        have : 0 ≤ segCost net opts e := segCost_nonneg hwf he'
        linarith
      · rw [hgcold _ hv2]
        have h1 := inv.fmono (getOtherNode e cur.nodeId) hv2 cur hcur
        have h2 := hvalAt_consistent hwf opts goalNode he' hend
        linarith [hcurf2]
    · rw [hgcold t ht2]
      rcases List.mem_cons.mp hvc with hv1 | hv2
      · rw [hv1, hgccur]
        obtain ⟨pn, hpn, hid, hg⟩ := inv.relaxedO t ht2 e he' hb hend (by
          rw [hv1]; exact hcurnc)
        have : pn = cur := open_id_unique inv.nodup hpn hcur (by rw [hid, hv1])
        rw [← this]
        exact hg
      · rw [hgcold _ hv2]
        exact inv.relaxedC t ht2 e he' hb hend hv2
  · -- relaxedO
    intro t ht e he' hb hend hvo
    dsimp only
    have hvnc : getOtherNode e t ∉ closed := fun h => hvo (List.mem_cons_of_mem _ h)
    have hvne : getOtherNode e t ≠ cur.nodeId := by
      intro h
      apply hvo
      rw [h]
      exact List.mem_cons_self _ _
    rcases List.mem_cons.mp ht with rfl | ht2
    · rw [hgccur]
      have heidmem : e.id ∈ eids := by
        rcases hend with h1 | h1
        · have := (hwf.adjComplete (e.id, e) (listGet_mem he')).1
          rw [heidsdef, ← h1]
          exact this
        · have := (hwf.adjComplete (e.id, e) (listGet_mem he')).2
          rw [heidsdef, ← h1]
          exact this
      have hnbs := other_present hwf he' cur.nodeId
      rcases hnbv : nodesGet net (getOtherNode e cur.nodeId) with _ | nb
      · rw [hnbv] at hnbs
        simp at hnbs
      rcases hcnv : nodesGet net cur.nodeId with _ | cn
      · rw [hcnv] at hcurnode
        simp at hcurnode
      obtain ⟨pn, hpn, hid, hg⟩ := expand_fold_complete eids base hbasend e.id heidmem
        e nb cn he' (blocked_iff.mpr hb) hvo hnbv hcnv
      refine ⟨pn, hpn, hid, ?_⟩
      rw [hsuccg e nb cn hend hnbv hcnv] at hg
      exact hg
    · rw [hgcold t ht2]
      obtain ⟨pn, hpn, hid, hg⟩ := inv.relaxedO t ht2 e he' hb hend hvnc
      exact expand_fold_persist eids base hbasend _ _
        ⟨pn, hbaseof pn hpn (by rw [hid]; exact hvne), hid, hg⟩
  · -- fmono
    intro t ht pn hpn
    dsimp only
    have hle : cur.f ≤ pn.f := by
      rcases hins pn hpn with h | ⟨e, nb, cn, he', hb, hend, hcl, hnb, hcn, rfl⟩
      · exact hmin pn (hbasemem pn h)
      · exact hsuccfmono e nb cn he' hb hend hnb hcn
    rcases List.mem_cons.mp ht with rfl | ht2
    · rw [hgccur, ← hcurf2]
      exact hle
    · rw [hgcold t ht2]
      have := inv.fmono t ht2 cur hcur
      linarith
  · -- closedNode
    intro t ht
    rcases List.mem_cons.mp ht with rfl | ht2
    · exact hcurnode
    · exact inv.closedNode t ht2
  · -- goalOpen
    intro hmem
    rcases List.mem_cons.mp hmem with h1 | h1
    · exact hng h1.symm
    · exact inv.goalOpen h1

/-! ### Main properties of the search loop -/

theorem AInv_init {net : RoadNetwork} {opts : PathOptions} {startId goalId : String}
    {startNode goalNode : Node}
    (hs : nodesGet net startId = some startNode)
    (hgoal : nodesGet net goalId = some goalNode) :
    AInv net opts startId goalId goalNode
      [PathNode.mk startId 0 (heuristic startNode.x startNode.y goalNode.x goalNode.y)
        (0 + heuristic startNode.x startNode.y goalNode.x goalNode.y) none none]
      [] (fun _ => 0) := by
  refine ⟨?_, ?_, ?_, ?_, ?_, ?_, ?_, ?_, ?_, ?_, ?_, ?_⟩
  · intro pn hpn
    rcases List.mem_singleton.mp hpn with rfl
    rw [ChainOK]
    exact ⟨by rw [hs]; rfl, (hvalAt_eq hs).symm, rfl, rfl, rfl⟩
  · simp
  · simp
  · left
    exact ⟨_, List.mem_singleton.mpr rfl, rfl, le_refl 0⟩
  · intro pn hpn
    rcases List.mem_singleton.mp hpn with rfl
    exact le_refl 0
  · intro t ht
    simp at ht
  · intro t ht
    simp at ht
  · intro t ht
    simp at ht
  · intro t ht
    simp at ht
  · intro t ht
    simp at ht
  · intro t ht
    simp at ht
  · simp

theorem searchLoop_main {net : RoadNetwork} {opts : PathOptions} {startId goalId : String}
    {goalNode : Node} (hwf : WF net) (hgoal : nodesGet net goalId = some goalNode) :
    ∀ (fuel : Nat) (op : List PathNode) (closed : List String) (gc : String → ℝ),
      AInv net opts startId goalId goalNode op closed gc →
      ∀ r : List Edge, searchLoop net opts goalId goalNode fuel op closed = some (some r) →
        ValidWalk net opts startId r goalId ∧
        ∀ P, ValidWalk net opts startId P goalId →
          routeCost net opts r ≤ routeCost net opts P := by
  intro fuel
  induction fuel with
  | zero =>
    intro op closed gc inv r h
    simp only [searchLoop] at h
    exact Option.noConfusion h
  | succ n ih =>
    intro op closed gc inv r h
    rcases hsel : selectMin op with _ | cur
    · simp only [searchLoop, hsel, Option.some.injEq] at h
      exact Option.noConfusion h
    · by_cases hgid : cur.nodeId = goalId
      · simp only [searchLoop, hsel, if_pos hgid, Option.some.injEq] at h
        subst h
        obtain ⟨hw, hc⟩ :=
          chain_sound net opts startId goalNode cur (inv.sound cur (selectMin_spec hsel).1)
        constructor
        · rw [← hgid]
          exact hw
        · intro P hP
          have hopt := pop_opt hwf inv hsel P (by rw [hgid]; exact hP)
          rw [hc]
          exact hopt
      · simp only [searchLoop, hsel, if_neg hgid] at h
        exact ih _ _ _ (AInv_preserved hwf hgoal inv hsel hgid) r h

/-- Invariant needed for termination alone (no well-formedness required):
open/closed node ids name nodes of the network, open ids are distinct and
disjoint from the closed set, and closed ids are distinct. -/
structure TInv (net : RoadNetwork) (op : List PathNode) (closed : List String) : Prop where
  openNode : ∀ pn ∈ op, (nodesGet net pn.nodeId).isSome
  opNodup : (op.map PathNode.nodeId).Nodup
  disj : ∀ pn ∈ op, pn.nodeId ∉ closed
  closedNodup : closed.Nodup
  closedNode : ∀ t ∈ closed, (nodesGet net t).isSome

theorem TInv_preserved {net : RoadNetwork} {opts : PathOptions} {goalNode : Node}
    {op : List PathNode} {closed : List String} (tinv : TInv net op closed)
    {cur : PathNode} (hsel : selectMin op = some cur) :
    TInv net
      ((adjGet net cur.nodeId).foldl
        (expandEdge net opts goalNode (cur.nodeId :: closed) cur)
        (openErase op cur.nodeId))
      (cur.nodeId :: closed) := by
  obtain ⟨hcur, _⟩ := selectMin_spec hsel
  have hbasend : ((openErase op cur.nodeId).map PathNode.nodeId).Nodup :=
    openErase_nodup tinv.opNodup
  have hbasene : ∀ pn ∈ openErase op cur.nodeId, pn.nodeId ≠ cur.nodeId :=
    openErase_ne tinv.opNodup
  refine ⟨?_, ?_, ?_, ?_, ?_⟩
  · intro pn hpn
    rcases expand_fold_origin _ _ pn hpn with h | ⟨e, nb, cn, eid, _, _, _, _, hnb, _, rfl⟩
    · exact tinv.openNode pn (mem_openErase h)
    · show (nodesGet net (getOtherNode e cur.nodeId)).isSome
      rw [hnb]
      rfl
  · exact expand_fold_nodup _ _ hbasend
  · intro pn hpn
    rcases expand_fold_origin _ _ pn hpn with h | ⟨e, nb, cn, eid, _, _, _, hcl, _, _, rfl⟩
    · intro hmem
      rcases List.mem_cons.mp hmem with h1 | h1
      · exact hbasene pn h h1
      · exact tinv.disj pn (mem_openErase h) h1
    · exact hcl
  · exact List.nodup_cons.mpr ⟨tinv.disj cur hcur, tinv.closedNodup⟩
  · intro t ht
    rcases List.mem_cons.mp ht with rfl | ht2
    · exact tinv.openNode cur hcur
    · exact tinv.closedNode t ht2

theorem listGet_isSome_key {α : Type} {l : List (String × α)} {k : String}
    (h : (listGet l k).isSome) : k ∈ l.map Prod.fst := by
  induction l with
  | nil => simp [listGet] at h
  | cons p rest ih =>
    rw [listGet] at h
    by_cases hp : p.1 = k
    · rw [List.map_cons, ← hp]
      exact List.mem_cons_self _ _
    · rw [if_neg hp] at h
      exact List.mem_cons_of_mem _ (ih h)

theorem nodup_subset_length {l l' : List String} (hnd : l.Nodup) (hsub : l ⊆ l') :
    l.length ≤ l'.length := by
  classical
  calc l.length = l.toFinset.card := (List.toFinset_card_of_nodup hnd).symm
    _ ≤ l'.toFinset.card := Finset.card_le_card (fun x hx =>
        List.mem_toFinset.mpr (hsub (List.mem_toFinset.mp hx)))
    _ ≤ l'.length := l'.toFinset_card_le

/-- With one unit of fuel per network node (plus one), the search loop never
exhausts its fuel: it returns a route or `null`. -/
theorem searchLoop_terminates {net : RoadNetwork} {opts : PathOptions} {goalId : String}
    {goalNode : Node} :
    ∀ (fuel : Nat) (op : List PathNode) (closed : List String),
      TInv net op closed →
      net.nodes.length + 1 ≤ fuel + closed.length →
      searchLoop net opts goalId goalNode fuel op closed ≠ none := by
  intro fuel
  induction fuel with
  | zero =>
    intro op closed tinv hle
    exfalso
    have hsub : closed ⊆ net.nodes.map Prod.fst := by
      intro t ht
      exact listGet_isSome_key (tinv.closedNode t ht)
    have hcard := nodup_subset_length tinv.closedNodup hsub
    rw [List.length_map] at hcard
    omega
  | succ n ih =>
    intro op closed tinv hle
    rcases hsel : selectMin op with _ | cur
    · simp only [searchLoop, hsel]
      exact fun h => Option.noConfusion h
    · by_cases hgid : cur.nodeId = goalId
      · simp only [searchLoop, hsel, if_pos hgid]
        exact fun h => Option.noConfusion h
      · simp only [searchLoop, hsel, if_neg hgid]
        apply ih
        · exact TInv_preserved tinv hsel
        · rw [List.length_cons]
          omega

/-- If an admissible walk from start to goal exists, the loop does not return
`null`. -/
theorem searchLoop_complete {net : RoadNetwork} {opts : PathOptions}
    {startId goalId : String} {goalNode : Node}
    (hwf : WF net) (hgoal : nodesGet net goalId = some goalNode) :
    ∀ (fuel : Nat) (op : List PathNode) (closed : List String) (gc : String → ℝ),
      AInv net opts startId goalId goalNode op closed gc →
      ∀ P, ValidWalk net opts startId P goalId →
      searchLoop net opts goalId goalNode fuel op closed ≠ some none := by
  intro fuel
  induction fuel with
  | zero =>
    intro op closed gc inv P hP
    simp only [searchLoop]
    exact fun h => Option.noConfusion h
  | succ n ih =>
    intro op closed gc inv P hP
    rcases hsel : selectMin op with _ | cur
    · have hempty : op = [] := selectMin_eq_none hsel
      obtain ⟨pn, hpn, _⟩ := frontier inv hP inv.goalOpen
      rw [hempty] at hpn
      simp at hpn
    · by_cases hgid : cur.nodeId = goalId
      · simp only [searchLoop, hsel, if_pos hgid]
        intro h
        rw [Option.some.injEq] at h
        cases h
      · simp only [searchLoop, hsel, if_neg hgid]
        exact ih _ _ _ (AInv_preserved hwf hgoal inv hsel hgid) P hP

/-- Routes returned by `findPath` are admissible walks from start to goal, and
they are optimal: no admissible walk between the same nodes costs less. -/
theorem findPath_spec {net : RoadNetwork} {s g : String} {arg : PathArg} {r : List Edge}
    (hwf : WF net) (h : findPath net s g arg = some r) :
    ValidWalk net (parseOptions arg) s r g ∧
    ∀ P, ValidWalk net (parseOptions arg) s P g →
      routeCost net (parseOptions arg) r ≤ routeCost net (parseOptions arg) P := by
  rcases option_cases (nodesGet net s) with hs | ⟨sn, hs⟩
  · simp only [findPath, hs] at h
    exact Option.noConfusion h
  rcases option_cases (nodesGet net g) with hg | ⟨gn, hg⟩
  · simp only [findPath, hs, hg] at h
    exact Option.noConfusion h
  simp only [findPath, hs, hg] at h
  rcases option_cases (searchLoop net (parseOptions arg) g gn (net.nodes.length + 1)
      [PathNode.mk s 0 (heuristic sn.x sn.y gn.x gn.y)
        (0 + heuristic sn.x sn.y gn.x gn.y) none none] []) with hl | ⟨res, hl⟩
  · rw [hl] at h
    simp at h
  · rw [hl] at h
    simp only [Option.getD_some] at h
    subst h
    exact searchLoop_main hwf hg _ _ _ _ (AInv_init hs hg) r hl

/-- If an admissible walk between two present nodes exists, `findPath` finds a
route. -/
theorem findPath_complete {net : RoadNetwork} {s g : String} {arg : PathArg}
    (hwf : WF net) {sn gn : Node}
    (hs : nodesGet net s = some sn) (hg : nodesGet net g = some gn)
    {P : List Edge} (hP : ValidWalk net (parseOptions arg) s P g) :
    ∃ r, findPath net s g arg = some r := by
  have tinv : TInv net
      [PathNode.mk s 0 (heuristic sn.x sn.y gn.x gn.y)
        (0 + heuristic sn.x sn.y gn.x gn.y) none none] [] := by
    refine ⟨?_, by simp, by simp, List.nodup_nil, by simp⟩
    intro pn hpn
    rcases List.mem_singleton.mp hpn with rfl
    rw [PathNode.nodeId_mk, hs]
    rfl
  rcases option_cases (searchLoop net (parseOptions arg) g gn (net.nodes.length + 1)
      [PathNode.mk s 0 (heuristic sn.x sn.y gn.x gn.y)
        (0 + heuristic sn.x sn.y gn.x gn.y) none none] []) with hl | ⟨res, hl⟩
  · exact absurd hl (searchLoop_terminates _ _ _ tinv (by simp))
  · rcases res with _ | r
    · exact absurd hl (searchLoop_complete hwf hg _ _ _ _ (AInv_init hs hg) P hP)
    · refine ⟨r, ?_⟩
      simp only [findPath, hs, hg, hl, Option.getD_some]

/-! ### Witness fixtures: a small line network -/

def wNodeA : Node := ⟨"a", 0, 0, NodeType.endpoint⟩

def wNodeB : Node := ⟨"b", 1, 0, NodeType.endpoint⟩

def wEdgeAB : Edge := ⟨"e1", "a", "b", 0, false⟩

def wNet : RoadNetwork :=
  ⟨[("a", wNodeA), ("b", wNodeB)], [("e1", wEdgeAB)], [("a", ["e1"]), ("b", ["e1"])]⟩

theorem wNet_wf : WF wNet := by
  constructor <;> decide

theorem wWalk3 : ValidWalk wNet ⟨false, false⟩ "a" [wEdgeAB, wEdgeAB, wEdgeAB] "b" := by
  refine ValidWalk.cons _ _ _ _ rfl (Or.inl rfl) (Or.inl rfl) ?_
  show ValidWalk wNet ⟨false, false⟩ "b" [wEdgeAB, wEdgeAB] "b"
  refine ValidWalk.cons _ _ _ _ rfl (Or.inr rfl) (Or.inl rfl) ?_
  show ValidWalk wNet ⟨false, false⟩ "a" [wEdgeAB] "b"
  refine ValidWalk.cons _ _ _ _ rfl (Or.inl rfl) (Or.inl rfl) ?_
  show ValidWalk wNet ⟨false, false⟩ "b" [] "b"
  exact ValidWalk.nil _

/-! ### Claim C1 -/

/-- C1: For every (well-formed) road network, every pair of nodes present in
it, and every policy, a route returned by `findPath` has total cost — the sum
over its segments of the Euclidean distance between the segment's endpoints
plus the accumulation penalty `min(snow * 0.5, 5) * 10` (zero when the policy
ignores snow) — at most the total cost of every other route between the same
two nodes that avoids blocked segments (blocked segments being admissible only
when the policy ignores them). -/
theorem C1_findPath_optimal (net : RoadNetwork) (s g : String) (arg : PathArg)
    (r rAlt : List Edge) (hwf : WF net)
    (hfound : findPath net s g arg = some r)
    (hAlt : ValidWalk net (parseOptions arg) s rAlt g) :
    routeCost net (parseOptions arg) r ≤ routeCost net (parseOptions arg) rAlt :=
  (findPath_spec hwf hfound).2 rAlt hAlt

/-- C1 witness: on the two-node line network, the returned single-segment route
costs no more than the three-segment detour walk. -/
theorem C1_witness :
    routeCost wNet ⟨false, false⟩ [wEdgeAB] ≤
      routeCost wNet ⟨false, false⟩ [wEdgeAB, wEdgeAB, wEdgeAB] :=
  C1_findPath_optimal wNet "a" "b" (.legacy false) [wEdgeAB]
    [wEdgeAB, wEdgeAB, wEdgeAB] wNet_wf (by rfl) wWalk3

/-! ### Claim C10 -/

/-- C10: `findPath` terminates on every finite road network: each iteration
moves the minimum-f node from the open set into the closed set and closed
nodes are never re-inserted, so with a budget of one expansion per network
node (plus one) the search loop always returns a route or `null` instead of
exhausting its budget. -/
theorem C10_search_terminates (net : RoadNetwork) (opts : PathOptions)
    (goalId : String) (goalNode : Node) (fuel : Nat) (op : List PathNode)
    (closed : List String) (htinv : TInv net op closed)
    (hfuel : net.nodes.length + 1 ≤ fuel + closed.length) :
    searchLoop net opts goalId goalNode fuel op closed ≠ none :=
  searchLoop_terminates fuel op closed htinv hfuel

/-- C10 witness: the initial loop state of `findPath` on the line network. -/
theorem C10_witness :
    searchLoop wNet ⟨false, false⟩ "b" wNodeB (wNet.nodes.length + 1)
      [PathNode.mk "a" 0 (heuristic 0 0 1 0) (0 + heuristic 0 0 1 0) none none]
      [] ≠ none := by
  refine C10_search_terminates wNet ⟨false, false⟩ "b" wNodeB _ _ [] ⟨?_, ?_, ?_, ?_, ?_⟩ ?_
  · intro pn hpn
    rcases List.mem_singleton.mp hpn with rfl
    rfl
  · simp
  · simp
  · exact List.nodup_nil
  · simp
  · simp

/-! ### Claim C9 -/

/-- C9: `findPath` from a present node to itself returns the empty route (not
`null`), and car spawning treats an empty route the same as no route: no car
is created. -/
theorem C9_empty_route (net : RoadNetwork) (n : String) (nd : Node)
    (arg : PathArg) (a b : String) (k : Nat) (rnd : ℝ)
    (hn : nodesGet net n = some nd) :
    findPath net n n arg = some [] ∧
    (findPath net a b (.legacy false) = some [] → trySpawnCar net a b k rnd = none) := by
  constructor
  · have hsel : selectMin [PathNode.mk n 0 (heuristic nd.x nd.y nd.x nd.y)
        (0 + heuristic nd.x nd.y nd.x nd.y) none none] =
        some (PathNode.mk n 0 (heuristic nd.x nd.y nd.x nd.y)
          (0 + heuristic nd.x nd.y nd.x nd.y) none none) := rfl
    simp only [findPath, hn, searchLoop, hsel, PathNode.nodeId_mk]
    simp [reconstructPath]
  · intro h
    simp [trySpawnCar, h]

/-! ### Characterization of `tryReroute` -/

/-- The countdown field does not affect the current edge. -/
@[simp] theorem getCurrentEdge_timer (car : CarData) (t : Int) :
    getCurrentEdge { car with rerouteCheckTimer := t } = getCurrentEdge car := rfl

/-- `tryReroute` either leaves the car unchanged save for its countdown (no
reroute), or adopts a strictly cheaper candidate route with all the gate
conditions satisfied. -/
theorem tryReroute_cases (net : RoadNetwork) (car : CarData) (θ : ℚ) :
    (∃ t' : Int, tryReroute net car θ = ({ car with rerouteCheckTimer := t' }, false)) ∨
    (∃ p, findPath net car.currentNodeId car.destinationNodeId (.legacy false) = some p ∧
      p ≠ [] ∧
      calculatePathCost p < calculatePathCost (car.path.drop car.pathIndex) * 0.8 ∧
      car.rerouteCheckTimer ≤ 1 ∧ car.stuck = false ∧ car.progress ≤ (0.1 : ℝ) ∧
      (∃ e, getCurrentEdge car = some e ∧ (θ < e.snow ∨ e.blocked = true)) ∧
      tryReroute net car θ =
        ({ car with rerouteCheckTimer := 60, path := p, pathIndex := 0, progress := 0 }, true)) := by
  by_cases h1 : (0 : Int) < car.rerouteCheckTimer - 1
  · left
    refine ⟨car.rerouteCheckTimer - 1, ?_⟩
    simp only [tryReroute, if_pos h1]
  by_cases h2 : car.stuck = true ∨ (0.1 : ℝ) < car.progress
  · left
    refine ⟨60, ?_⟩
    simp only [tryReroute, if_neg h1, if_pos h2]
  rcases option_cases (getCurrentEdge car) with hce | ⟨e, hce⟩
  · left
    refine ⟨60, ?_⟩
    simp only [tryReroute, if_neg h1, if_neg h2, getCurrentEdge_timer, hce]
  by_cases h3 : ¬(θ < e.snow ∨ e.blocked = true)
  · left
    refine ⟨60, ?_⟩
    simp only [tryReroute, if_neg h1, if_neg h2, getCurrentEdge_timer, hce, if_pos h3]
  rcases option_cases (findPath net car.currentNodeId car.destinationNodeId (.legacy false))
    with hfp | ⟨p, hfp⟩
  · left
    refine ⟨60, ?_⟩
    simp only [tryReroute, if_neg h1, if_neg h2, getCurrentEdge_timer, hce, if_neg h3, hfp]
  by_cases h4 : p.length = 0
  · left
    refine ⟨60, ?_⟩
    simp only [tryReroute, if_neg h1, if_neg h2, getCurrentEdge_timer, hce, if_neg h3, hfp,
      if_pos h4]
  by_cases h5 : calculatePathCost p < calculatePathCost (car.path.drop car.pathIndex) * 0.8
  · right
    have hst : car.stuck = false := by
      rcases Bool.eq_false_or_eq_true car.stuck with h | h
      · exact absurd (Or.inl h) h2
      · exact h
    have hpr : car.progress ≤ (0.1 : ℝ) := by
      by_contra hc
      exact h2 (Or.inr (lt_of_not_le hc))
    refine ⟨p, hfp, ?_, h5, by omega, hst, hpr, ⟨e, hce, not_not.mp h3⟩, ?_⟩
    · intro hp
      rw [hp] at h4
      exact h4 rfl
    · simp only [tryReroute, if_neg h1, if_neg h2, getCurrentEdge_timer, hce, if_neg h3, hfp,
        if_neg h4, if_pos h5]
  · left
    refine ⟨60, ?_⟩
    simp only [tryReroute, if_neg h1, if_neg h2, getCurrentEdge_timer, hce, if_neg h3, hfp,
      if_neg h4, if_neg h5]

/-- `tryReroute` never changes the `stuck` flag. -/
theorem tryReroute_stuck (net : RoadNetwork) (car : CarData) (θ : ℚ) :
    (tryReroute net car θ).1.stuck = car.stuck := by
  rcases tryReroute_cases net car θ with ⟨t', h⟩ | ⟨p, _, _, _, _, _, _, _, h⟩ <;> rw [h]

/-- C9 witness: on the line network the a-to-a query returns the empty route
and spawning an a-to-a car is refused. -/
theorem C9_witness :
    findPath wNet "a" "a" (.legacy false) = some [] ∧ trySpawnCar wNet "a" "a" 0 0 = none := by
  have h := C9_empty_route wNet "a" wNodeA (.legacy false) "a" "a" 0 (0 : ℝ) (by rfl)
  exact ⟨h.1, h.2 h.1⟩

/-! ### Claim C2 -/

/-- Folding snow operations over a non-negative level stays non-negative when
every accumulation amount is non-negative. -/
theorem foldl_applySnowOp_nonneg (ops : List SnowOp) :
    ∀ s0 : ℚ, 0 ≤ s0 → (∀ a : ℚ, SnowOp.accumulate a ∈ ops → 0 ≤ a) →
      0 ≤ ops.foldl applySnowOp s0 := by
  induction ops with
  | nil =>
    intro s0 h0 _
    exact h0
  | cons op rest ih =>
    intro s0 h0 hacc
    rw [List.foldl_cons]
    refine ih _ ?_ (fun a ha => hacc a (List.mem_cons_of_mem _ ha))
    cases op with
    | accumulate a => exact add_nonneg h0 (hacc a (List.mem_cons_self _ _))
    | clear a => exact le_max_left 0 _

/-- C2: starting from a non-negative accumulation, any finite sequence of
accumulate operations (with non-negative snowfall amounts) and clear
operations leaves a segment's accumulation non-negative; a clear clamps at 0
and never drives the level negative, whatever its amount. -/
theorem C2_snow_nonneg (s0 : ℚ) (ops : List SnowOp) (h0 : 0 ≤ s0)
    (hacc : ∀ a : ℚ, SnowOp.accumulate a ∈ ops → 0 ≤ a) :
    0 ≤ ops.foldl applySnowOp s0 ∧ ∀ s a : ℚ, 0 ≤ applySnowOp s (SnowOp.clear a) :=
  ⟨foldl_applySnowOp_nonneg ops s0 h0 hacc, fun _ _ => le_max_left 0 _⟩

/-- C2 witness: a concrete operation sequence with an over-large clear. -/
theorem C2_witness :
    0 ≤ [SnowOp.accumulate 3, SnowOp.clear 100, SnowOp.accumulate 1].foldl applySnowOp 2 ∧
      ∀ s a : ℚ, 0 ≤ applySnowOp s (SnowOp.clear a) := by
  refine C2_snow_nonneg 2 _ (by norm_num) ?_
  intro a ha
  simp only [List.mem_cons, List.not_mem_nil, or_false] at ha
  rcases ha with ha | ha | ha
  · cases ha
    norm_num
  · cases ha
  · cases ha
    norm_num

/-! ### Claim C3 -/

def wEdge9 : Edge := ⟨"e9", "a", "b", 9, false⟩

def wEdge8 : Edge := ⟨"e8", "a", "b", 8, false⟩

def wCar9 : CarData := ⟨"c9", "a", "b", [wEdge9], 0, 0, 100, false, 0, false, 60⟩

def wCar8 : CarData := ⟨"c8", "a", "b", [wEdge8], 0, 0, 100, false, 0, false, 60⟩

/-- C3: a car whose current segment's accumulation is exactly the deep tier
value (9) is marked stuck by the next update; with accumulation one unit below
the boundary (8) it is not. -/
theorem C3_immobilization_boundary (net : RoadNetwork) (others : List CarData)
    (car : CarData) (delta : ℝ) (e : Edge)
    (hce : getCurrentEdge car = some e) (hstuck : car.stuck = false) :
    (e.snow = 9 → (updateCar net others car delta).stuckOf = some true) ∧
    (e.snow = 8 → (updateCar net others car delta).stuckOf = some false) := by
  constructor
  · intro h9
    have hcond : SNOW_LEVELS_DEEP ≤ e.snow ∧ car.stuck = false := by
      refine ⟨?_, hstuck⟩
      rw [h9]
      exact le_refl (9 : ℚ)
    simp only [updateCar, hce, if_pos hcond]
    simp [CarTick.stuckOf]
  · intro h8
    have hcond : ¬(SNOW_LEVELS_DEEP ≤ e.snow ∧ car.stuck = false) := by
      rintro ⟨hle, -⟩
      rw [h8, SNOW_LEVELS_DEEP] at hle
      norm_num at hle
    have hst2 : ¬(car.stuck = true) := by
      rw [hstuck]
      simp
    rcases option_cases (isBlockedByCarAhead others car 0.12) with hb | ⟨bc, hb⟩
    · simp only [updateCar, hce, if_neg hcond, if_neg hst2, hb]
      split <;> simp [CarTick.stuckOf, tryReroute_stuck, hstuck]
    · simp only [updateCar, hce, if_neg hcond, if_neg hst2, hb]
      simp [CarTick.stuckOf, hstuck]

/-- C3 witness: two concrete cars on segments with accumulation 9 and 8. -/
theorem C3_witness :
    (updateCar wNet [] wCar9 16).stuckOf = some true ∧
    (updateCar wNet [] wCar8 16).stuckOf = some false :=
  ⟨(C3_immobilization_boundary wNet [] wCar9 16 wEdge9 rfl rfl).1 rfl,
   (C3_immobilization_boundary wNet [] wCar8 16 wEdge8 rfl rfl).2 rfl⟩

/-! ### Claim C4 -/

/-- Every entry of `getCarsAheadInLane` is a distinct car on the same segment
travelling the same direction, strictly ahead, paired with its gap. -/
theorem carsAheadInLane_mem {cars : List CarData} {car : CarData} {e : Edge}
    (hce : getCurrentEdge car = some e) {p : CarData × ℝ}
    (hp : p ∈ carsAheadInLane cars car) :
    p.1 ∈ cars ∧ p.1.id ≠ car.id ∧
    (∃ eb, getCurrentEdge p.1 = some eb ∧ eb.id = e.id) ∧
    p.1.currentNodeId = car.currentNodeId ∧ car.progress < p.1.progress ∧
    p.2 = p.1.progress - car.progress := by
  simp only [carsAheadInLane, hce] at hp
  induction cars with
  | nil => exact absurd hp (List.not_mem_nil p)
  | cons c rest ih =>
    simp only [List.foldr_cons] at hp
    by_cases h1 : c.id = car.id
    · rw [if_pos h1] at hp
      rcases ih hp with ⟨hm, more⟩
      exact ⟨List.mem_cons_of_mem _ hm, more⟩
    rw [if_neg h1] at hp
    rcases option_cases (getCurrentEdge c) with hc | ⟨ec, hc⟩
    · simp only [hc] at hp
      rcases ih hp with ⟨hm, more⟩
      exact ⟨List.mem_cons_of_mem _ hm, more⟩
    simp only [hc] at hp
    by_cases h3 : ec.id = e.id
    · rw [if_neg (not_not_intro h3)] at hp
      by_cases h4 : c.currentNodeId = car.currentNodeId
      · rw [if_neg (not_not_intro h4)] at hp
        by_cases h5 : car.progress < c.progress
        · rw [if_pos h5] at hp
          rcases List.mem_cons.mp hp with rfl | hp2
          · exact ⟨List.mem_cons_self _ _, h1, ⟨ec, hc, h3⟩, h4, h5, rfl⟩
          · rcases ih hp2 with ⟨hm, more⟩
            exact ⟨List.mem_cons_of_mem _ hm, more⟩
        · rw [if_neg h5] at hp
          rcases ih hp with ⟨hm, more⟩
          exact ⟨List.mem_cons_of_mem _ hm, more⟩
      · rw [if_pos h4] at hp
        rcases ih hp with ⟨hm, more⟩
        exact ⟨List.mem_cons_of_mem _ hm, more⟩
    · rw [if_pos h3] at hp
      rcases ih hp with ⟨hm, more⟩
      exact ⟨List.mem_cons_of_mem _ hm, more⟩

/-- The nearest-candidate fold only ever returns the accumulator or a list
entry. -/
theorem foldl_nearStep_mem (l : List (CarData × ℝ)) :
    ∀ acc r, l.foldl nearStep acc = some r → acc = some r ∨ r ∈ l := by
  induction l with
  | nil =>
    intro acc r h
    exact Or.inl h
  | cons p rest ih =>
    intro acc r h
    rw [List.foldl_cons] at h
    rcases ih _ r h with hacc | hmem
    · cases acc with
      | none =>
        rw [nearStep] at hacc
        exact Or.inr (List.mem_cons.mpr (Or.inl (Option.some.inj hacc).symm))
      | some q =>
        rw [nearStep] at hacc
        by_cases hlt : p.2 < q.2
        · rw [if_pos hlt] at hacc
          exact Or.inr (List.mem_cons.mpr (Or.inl (Option.some.inj hacc).symm))
        · rw [if_neg hlt] at hacc
          exact Or.inl hacc
    · exact Or.inr (List.mem_cons_of_mem _ hmem)

/-- The nearest car ahead is one of the candidates. -/
theorem nearestAhead_mem {l : List (CarData × ℝ)} {r : CarData × ℝ}
    (h : nearestAhead l = some r) : r ∈ l := by
  rcases foldl_nearStep_mem l none r h with hacc | hmem
  · exact Option.noConfusion hacc
  · exact hmem

/-- C4: a car reported by `isBlockedByCarAhead` occupies the same segment
travelling the same direction and is strictly ahead (so opposite-direction
traffic never blocks); it is within the stop-distance threshold and itself
stuck or waiting, or within the hard minimum separation 0.08 regardless of
state; and a blocked car's tick sets its waiting flag and leaves its progress
unchanged. -/
theorem C4_same_direction_blocking (net : RoadNetwork) (cars : List CarData)
    (car b : CarData) (θ delta : ℝ) (e : Edge)
    (hce : getCurrentEdge car = some e)
    (hb : isBlockedByCarAhead cars car θ = some b) :
    b ∈ cars ∧ b.id ≠ car.id ∧
    (∃ eb, getCurrentEdge b = some eb ∧ eb.id = e.id) ∧
    b.currentNodeId = car.currentNodeId ∧
    car.progress < b.progress ∧
    ((b.progress - car.progress < θ ∧ (b.stuck = true ∨ b.waiting = true)) ∨
      b.progress - car.progress < 0.08) ∧
    (θ = 0.12 → car.stuck = false → e.snow < SNOW_LEVELS_DEEP →
      updateCar net cars car delta = CarTick.active { car with waiting := true }) := by
  have hb0 := hb
  rcases option_cases (nearestAhead (carsAheadInLane cars car)) with hn | ⟨q, hn⟩
  · simp only [isBlockedByCarAhead, hn] at hb
    exact Option.noConfusion hb
  have hq := carsAheadInLane_mem hce (nearestAhead_mem hn)
  simp only [isBlockedByCarAhead, hn] at hb
  have hkey : q.1 = b ∧ ((q.2 < θ ∧ (q.1.stuck = true ∨ q.1.waiting = true)) ∨ q.2 < 0.08) := by
    by_cases h1 : q.2 < θ ∧ (q.1.stuck = true ∨ q.1.waiting = true)
    · rw [if_pos h1] at hb
      exact ⟨Option.some.inj hb, Or.inl h1⟩
    · rw [if_neg h1] at hb
      by_cases h2 : q.2 < 0.08
      · rw [if_pos h2] at hb
        exact ⟨Option.some.inj hb, Or.inr h2⟩
      · rw [if_neg h2] at hb
        exact Option.noConfusion hb
  rcases hkey with ⟨hq1, hdisj⟩
  rcases hq with ⟨hmem, hid, heb, hdir, hprog, hdist⟩
  rw [hq1] at hmem hid heb hdir hprog hdist hdisj
  rw [hdist] at hdisj
  refine ⟨hmem, hid, heb, hdir, hprog, hdisj, ?_⟩
  intro hθ hstuck hsnow
  subst hθ
  have hcond : ¬(SNOW_LEVELS_DEEP ≤ e.snow ∧ car.stuck = false) := by
    rintro ⟨hle, -⟩
    exact absurd hle (not_le.mpr hsnow)
  have hst2 : ¬(car.stuck = true) := by
    rw [hstuck]
    simp
  simp only [updateCar, hce, if_neg hcond, if_neg hst2, hb0]

def wCarL : CarData := ⟨"carL", "a", "b", [wEdgeAB], 0, 0.35, 100, false, 0, false, 60⟩

def wCarT : CarData := ⟨"carT", "a", "b", [wEdgeAB], 0, 0.3, 100, false, 0, false, 60⟩

/-- C4 witness: a trailing car 0.05 behind a leading car on the same segment
and direction is blocked and waits. -/
theorem C4_witness :
    updateCar wNet [wCarL] wCarT 16 = CarTick.active { wCarT with waiting := true } := by
  have hb : isBlockedByCarAhead [wCarL] wCarT 0.12 = some wCarL := by
    have h1 : ¬("carL" = "carT") := by decide
    norm_num [isBlockedByCarAhead, carsAheadInLane, nearestAhead, nearStep,
      getCurrentEdge, wCarL, wCarT, wEdgeAB, h1]
  exact (C4_same_direction_blocking wNet [wCarL] wCarT wCarL 0.12 16 wEdgeAB rfl
    hb).2.2.2.2.2.2 rfl rfl (by norm_num [wEdgeAB, SNOW_LEVELS_DEEP])

/-- C5: `tryReroute` replaces the car's route only when the countdown has
expired, the car is not stuck, its progress is at most 0.1, the current
segment is bad (accumulation above the threshold or obstructed), a non-empty
candidate route exists and the candidate's cost is below 80 percent of the
remaining cost of the old route; in every other case path, path index and
progress are unchanged. -/
theorem C5_reroute_gating (net : RoadNetwork) (car : CarData) (θ : ℚ) :
    ((tryReroute net car θ).2 = true →
      car.rerouteCheckTimer ≤ 1 ∧ car.stuck = false ∧ car.progress ≤ (0.1 : ℝ) ∧
      (∃ e, getCurrentEdge car = some e ∧ (θ < e.snow ∨ e.blocked = true)) ∧
      (∃ p, findPath net car.currentNodeId car.destinationNodeId (.legacy false) = some p ∧
        p ≠ [] ∧
        calculatePathCost p < calculatePathCost (car.path.drop car.pathIndex) * 0.8 ∧
        (tryReroute net car θ).1.path = p ∧ (tryReroute net car θ).1.pathIndex = 0 ∧
        (tryReroute net car θ).1.progress = 0)) ∧
    ((tryReroute net car θ).2 = false →
      (tryReroute net car θ).1.path = car.path ∧
      (tryReroute net car θ).1.pathIndex = car.pathIndex ∧
      (tryReroute net car θ).1.progress = car.progress) := by
  rcases tryReroute_cases net car θ with ⟨t', h⟩ |
    ⟨p, hfp, hne, hcost, htimer, hstuck, hprog, hedge, h⟩
  · constructor
    · intro htrue
      rw [h] at htrue
      simp at htrue
    · intro _
      rw [h]
      exact ⟨rfl, rfl, rfl⟩
  · constructor
    · intro _
      exact ⟨htimer, hstuck, hprog, hedge, p, hfp, hne, hcost,
        by rw [h], by rw [h], by rw [h]⟩
    · intro hfalse
      rw [h] at hfalse
      simp at hfalse

def wCarIdle : CarData := ⟨"ci", "a", "b", [wEdgeAB], 0, 0.5, 100, false, 0, false, 60⟩

/-- C5 witness: a car with a fresh countdown keeps its route. -/
theorem C5_witness :
    (tryReroute wNet wCarIdle 8).1.path = wCarIdle.path ∧
    (tryReroute wNet wCarIdle 8).1.pathIndex = wCarIdle.pathIndex ∧
    (tryReroute wNet wCarIdle 8).1.progress = wCarIdle.progress := by
  refine (C5_reroute_gating wNet wCarIdle 8).2 ?_
  have h : (0 : Int) < wCarIdle.rerouteCheckTimer - 1 := by norm_num [wCarIdle]
  simp only [tryReroute, if_pos h]

/-! ### Claim C6: fixtures with a depot -/

def wNodeD : Node := ⟨"depot", 0, 0, NodeType.depot⟩

def wNodeA2 : Node := ⟨"a", 1, 0, NodeType.intersection⟩

def wNodeB2 : Node := ⟨"b", 2, 0, NodeType.endpoint⟩

def wEdgeDA : Edge := ⟨"d1", "depot", "a", 0, false⟩

def wEdgeAB2 : Edge := ⟨"e1", "a", "b", 0, false⟩

def wNetD : RoadNetwork :=
  ⟨[("depot", wNodeD), ("a", wNodeA2), ("b", wNodeB2)],
   [("d1", wEdgeDA), ("e1", wEdgeAB2)],
   [("depot", ["d1"]), ("a", ["d1", "e1"]), ("b", ["e1"])]⟩

theorem wNetD_wf : WF wNetD := by
  constructor <;> decide

theorem wWalkDA : ValidWalk wNetD ⟨true, true⟩ "depot" [wEdgeDA] "a" := by
  refine ValidWalk.cons _ _ _ _ rfl (Or.inl rfl) (Or.inl rfl) ?_
  show ValidWalk wNetD ⟨true, true⟩ "a" [] "a"
  exact ValidWalk.nil _

/-- C6: while the plow cooldown is positive, dispatch leaves the state (the
cooldown included) unchanged; once it has elapsed, dispatching towards a
segment whose near endpoint is reachable from the depot adds exactly one plow
and restarts the cooldown. -/
theorem C6_plow_cooldown (net : RoadNetwork) (st : DispatchState) (e : Edge)
    (hwf : WF net) (dn an : Node)
    (hd : nodesGet net "depot" = some dn) (ha : nodesGet net e.«from» = some an)
    (P : List Edge) (hP : ValidWalk net ⟨true, true⟩ "depot" P e.«from») :
    (0 < st.plowCooldown → dispatchPlow net st e = st) ∧
    (st.plowCooldown ≤ 0 →
      (dispatchPlow net st e).plows.length = st.plows.length + 1 ∧
      (dispatchPlow net st e).plowCooldown = TIMING_PLOW_COOLDOWN ∧
      (dispatchPlow net st e).nextPlowId = st.nextPlowId + 1) := by
  constructor
  · intro hpos
    rw [dispatchPlow, if_pos hpos]
  · intro hle
    have hnpos : ¬ 0 < st.plowCooldown := not_lt.mpr hle
    obtain ⟨rA, hrA⟩ :=
      @findPath_complete net "depot" e.«from» (.opts ⟨true, true⟩) hwf dn an hd ha P hP
    rcases option_cases (findPath net "depot" e.«to» (.opts ⟨true, true⟩)) with hB | ⟨rB, hB⟩
    · simp only [dispatchPlow, if_neg hnpos, hrA, hB]
      exact ⟨by simp, by trivial, by trivial⟩
    · simp only [dispatchPlow, if_neg hnpos, hrA, hB]
      exact ⟨by simp, by trivial, by trivial⟩

/-- C6 witness: dispatch on the depot line network, under and after
cooldown. -/
theorem C6_witness :
    dispatchPlow wNetD ⟨5, [], 0⟩ wEdgeAB2 = ⟨5, [], 0⟩ ∧
    (dispatchPlow wNetD ⟨0, [], 0⟩ wEdgeAB2).plows.length = 1 ∧
    (dispatchPlow wNetD ⟨0, [], 0⟩ wEdgeAB2).plowCooldown = TIMING_PLOW_COOLDOWN ∧
    (dispatchPlow wNetD ⟨0, [], 0⟩ wEdgeAB2).nextPlowId = 1 := by
  constructor
  · exact (C6_plow_cooldown wNetD ⟨5, [], 0⟩ wEdgeAB2 wNetD_wf wNodeD wNodeA2 rfl rfl
      [wEdgeDA] wWalkDA).1 (show (0 : ℝ) < 5 by norm_num)
  · exact (C6_plow_cooldown wNetD ⟨0, [], 0⟩ wEdgeAB2 wNetD_wf wNodeD wNodeA2 rfl rfl
      [wEdgeDA] wWalkDA).2 (le_refl 0)

/-! ### Rational-distance evaluation -/

/-- Closed form of the planner distance on inputs with a rational norm. -/
theorem distFn_rat (x1 y1 x2 y2 c : ℚ) (h : (x2 - x1) ^ 2 + (y2 - y1) ^ 2 = c ^ 2)
    (hc : 0 ≤ c) : distFn x1 y1 x2 y2 = (c : ℝ) := by
  rw [distFn, h]
  rw [show ((c ^ 2 : ℚ) : ℝ) = (c : ℝ) ^ 2 by push_cast; ring]
  exact Real.sqrt_sq (by exact_mod_cast hc)

/-- Any admissible walk costs at least the straight-line distance between its
endpoints. -/
theorem walk_cost_lb {net : RoadNetwork} (hwf : WF net) {opts : PathOptions}
    {s t : String} {P : List Edge} (h : ValidWalk net opts s P t)
    {sn tn : Node} (hs : nodesGet net s = some sn) (ht : nodesGet net t = some tn) :
    distFn sn.x sn.y tn.x tn.y ≤ routeCost net opts P := by
  have hb := hvalAt_walk_bound hwf tn h
  rw [hvalAt_eq hs, hvalAt_eq ht, heuristic_eq_distFn, heuristic_eq_distFn, distFn_self] at hb
  linarith

/-- Inversion principle for walks. -/
theorem ValidWalk_inv {net : RoadNetwork} {opts : PathOptions} {s t : String}
    {P : List Edge} (h : ValidWalk net opts s P t) :
    (P = [] ∧ s = t) ∨
    ∃ e rest, P = e :: rest ∧ edgesGet net e.id = some e ∧
      (e.«from» = s ∨ e.«to» = s) ∧ (e.blocked = false ∨ opts.ignoreBlocked = true) ∧
      ValidWalk net opts (getOtherNode e s) rest t := by
  cases h with
  | nil => exact Or.inl ⟨rfl, rfl⟩
  | cons s e rest t he hend hb hrest => exact Or.inr ⟨e, rest, rfl, he, hend, hb, hrest⟩

/-- In a network whose segments all cost at least 1, a walk cheaper than 1 is
empty. -/
theorem walk_eq_nil_of_cost {net : RoadNetwork} (hwf : WF net) {opts : PathOptions}
    {s t : String} {P : List Edge} (h : ValidWalk net opts s P t)
    (hmin : ∀ e : Edge, edgesGet net e.id = some e → 1 ≤ segCost net opts e)
    (hc : routeCost net opts P < 1) : P = [] := by
  cases h with
  | nil => rfl
  | cons s e rest t he hend hb hrest =>
    exfalso
    have h1 := hmin e he
    have h2 : 0 ≤ routeCost net opts rest := routeCost_nonneg hwf hrest.edges_mem
    rw [routeCost_cons] at hc
    linarith

/-- A snow-free segment carries no accumulation penalty under any policy. -/
theorem pen_zero (opts : PathOptions) :
    (((if opts.ignoreSnow then 0 else min ((0 : ℚ) * 0.5) 5 * 10 : ℚ)) : ℝ) = 0 := by
  by_cases h : opts.ignoreSnow
  · rw [if_pos h]
    norm_num
  · rw [if_neg h]
    norm_num

/-! ### Claim C7: a network where segment count and distance disagree -/

def c7D : Node := ⟨"depot", 0, 0, NodeType.depot⟩

def c7M : Node := ⟨"m", 1, 0, NodeType.intersection⟩

def c7T : Node := ⟨"t", 2, 0, NodeType.intersection⟩

def c7F : Node := ⟨"f", 1, 15/8, NodeType.intersection⟩

def c7eDM : Edge := ⟨"dm", "depot", "m", 0, false⟩

def c7eMT : Edge := ⟨"mt", "m", "t", 0, false⟩

def c7eDF : Edge := ⟨"df", "depot", "f", 0, false⟩

def c7S : Edge := ⟨"s", "t", "f", 0, false⟩

def c7net : RoadNetwork :=
  ⟨[("depot", c7D), ("m", c7M), ("t", c7T), ("f", c7F)],
   [("dm", c7eDM), ("mt", c7eMT), ("df", c7eDF), ("s", c7S)],
   [("depot", ["dm", "df"]), ("m", ["dm", "mt"]), ("t", ["mt", "s"]), ("f", ["df", "s"])]⟩

theorem c7net_wf : WF c7net := by
  constructor <;> decide

theorem c7_segCost_dm (opts : PathOptions) : segCost c7net opts c7eDM = 1 := by
  have h1 : nodesGet c7net "depot" = some c7D := rfl
  have h2 : nodesGet c7net "m" = some c7M := rfl
  simp only [segCost, c7eDM, h1, h2, c7D, c7M]
  rw [distFn_rat 0 0 1 0 1 (by norm_num) (by norm_num), pen_zero]
  norm_num

theorem c7_segCost_mt (opts : PathOptions) : segCost c7net opts c7eMT = 1 := by
  have h1 : nodesGet c7net "m" = some c7M := rfl
  have h2 : nodesGet c7net "t" = some c7T := rfl
  simp only [segCost, c7eMT, h1, h2, c7M, c7T]
  rw [distFn_rat 1 0 2 0 1 (by norm_num) (by norm_num), pen_zero]
  norm_num

theorem c7_segCost_df (opts : PathOptions) : segCost c7net opts c7eDF = 17/8 := by
  have h1 : nodesGet c7net "depot" = some c7D := rfl
  have h2 : nodesGet c7net "f" = some c7F := rfl
  simp only [segCost, c7eDF, h1, h2, c7D, c7F]
  rw [distFn_rat 0 0 1 (15/8) (17/8) (by norm_num) (by norm_num), pen_zero]
  norm_num

theorem c7_segCost_s (opts : PathOptions) : segCost c7net opts c7S = 17/8 := by
  have h1 : nodesGet c7net "t" = some c7T := rfl
  have h2 : nodesGet c7net "f" = some c7F := rfl
  simp only [segCost, c7S, h1, h2, c7T, c7F]
  rw [distFn_rat 2 0 1 (15/8) (17/8) (by norm_num) (by norm_num), pen_zero]
  norm_num

theorem c7_edges {k : String} {e : Edge} (he : edgesGet c7net k = some e) :
    e = c7eDM ∨ e = c7eMT ∨ e = c7eDF ∨ e = c7S := by
  have hm := listGet_mem he
  simp only [c7net, List.mem_cons, List.not_mem_nil, or_false, Prod.mk.injEq] at hm
  rcases hm with ⟨-, h⟩ | ⟨-, h⟩ | ⟨-, h⟩ | ⟨-, h⟩
  · exact Or.inl h
  · exact Or.inr (Or.inl h)
  · exact Or.inr (Or.inr (Or.inl h))
  · exact Or.inr (Or.inr (Or.inr h))

theorem c7_min (opts : PathOptions) :
    ∀ e : Edge, edgesGet c7net e.id = some e → 1 ≤ segCost c7net opts e := by
  intro e he
  rcases c7_edges he with rfl | rfl | rfl | rfl
  · rw [c7_segCost_dm]
  · rw [c7_segCost_mt]
  · rw [c7_segCost_df]
    norm_num
  · rw [c7_segCost_s]
    norm_num

theorem c7_route_f {opts : PathOptions} {r : List Edge}
    (hw : ValidWalk c7net opts "depot" r "f")
    (hc : routeCost c7net opts r ≤ 17/8) : r = [c7eDF] := by
  rcases ValidWalk_inv hw with ⟨-, habs⟩ | ⟨e, rest, rfl, he, hend, hb, hrest⟩
  · exact absurd habs (by decide)
  rw [routeCost_cons] at hc
  rcases c7_edges he with rfl | rfl | rfl | rfl
  · exfalso
    have hgo : getOtherNode c7eDM "depot" = "m" := rfl
    rw [hgo] at hrest
    have h2 := walk_cost_lb c7net_wf hrest
      (show nodesGet c7net "m" = some c7M from rfl)
      (show nodesGet c7net "f" = some c7F from rfl)
    have h3 : distFn c7M.x c7M.y c7F.x c7F.y = 15/8 := by
      simp only [c7M, c7F]
      rw [distFn_rat 1 0 1 (15/8) (15/8) (by norm_num) (by norm_num)]
      norm_num
    rw [h3] at h2
    rw [c7_segCost_dm] at hc
    linarith
  · rcases hend with h | h <;> exact absurd h (by decide)
  · have hgo : getOtherNode c7eDF "depot" = "f" := rfl
    rw [hgo] at hrest
    rw [c7_segCost_df] at hc
    have hnil : rest = [] := walk_eq_nil_of_cost c7net_wf hrest (c7_min opts) (by linarith)
    rw [hnil]
  · rcases hend with h | h <;> exact absurd h (by decide)

theorem c7_route_t {opts : PathOptions} {r : List Edge}
    (hw : ValidWalk c7net opts "depot" r "t")
    (hc : routeCost c7net opts r ≤ 2) : r = [c7eDM, c7eMT] := by
  rcases ValidWalk_inv hw with ⟨-, habs⟩ | ⟨e, rest, rfl, he, hend, hb, hrest⟩
  · exact absurd habs (by decide)
  rw [routeCost_cons] at hc
  rcases c7_edges he with rfl | rfl | rfl | rfl
  · have hgo : getOtherNode c7eDM "depot" = "m" := rfl
    rw [hgo] at hrest
    rw [c7_segCost_dm] at hc
    rcases ValidWalk_inv hrest with ⟨-, habs⟩ | ⟨e2, rest2, rfl, he2, hend2, hb2, hrest2⟩
    · exact absurd habs (by decide)
    rw [routeCost_cons] at hc
    rcases c7_edges he2 with rfl | rfl | rfl | rfl
    · exfalso
      have hgo2 : getOtherNode c7eDM "m" = "depot" := rfl
      rw [hgo2] at hrest2
      have h2 := walk_cost_lb c7net_wf hrest2
        (show nodesGet c7net "depot" = some c7D from rfl)
        (show nodesGet c7net "t" = some c7T from rfl)
      have h3 : distFn c7D.x c7D.y c7T.x c7T.y = 2 := by
        simp only [c7D, c7T]
        rw [distFn_rat 0 0 2 0 2 (by norm_num) (by norm_num)]
        norm_num
      rw [h3] at h2
      rw [c7_segCost_dm] at hc
      linarith
    · have hgo2 : getOtherNode c7eMT "m" = "t" := rfl
      rw [hgo2] at hrest2
      rw [c7_segCost_mt] at hc
      have hnil : rest2 = [] := walk_eq_nil_of_cost c7net_wf hrest2 (c7_min opts) (by linarith)
      rw [hnil]
    · rcases hend2 with h | h <;> exact absurd h (by decide)
    · rcases hend2 with h | h <;> exact absurd h (by decide)
  · rcases hend with h | h <;> exact absurd h (by decide)
  · exfalso
    have hgo : getOtherNode c7eDF "depot" = "f" := rfl
    rw [hgo] at hrest
    have h2 := walk_cost_lb c7net_wf hrest
      (show nodesGet c7net "f" = some c7F from rfl)
      (show nodesGet c7net "t" = some c7T from rfl)
    have h3 : distFn c7F.x c7F.y c7T.x c7T.y = 17/8 := by
      simp only [c7F, c7T]
      rw [distFn_rat 1 (15/8) 2 0 (17/8) (by norm_num) (by norm_num)]
      norm_num
    rw [h3] at h2
    rw [c7_segCost_df] at hc
    linarith
  · rcases hend with h | h <;> exact absurd h (by decide)

theorem c7walkT (opts : PathOptions) : ValidWalk c7net opts "depot" [c7eDM, c7eMT] "t" := by
  refine ValidWalk.cons _ _ _ _ rfl (Or.inl rfl) (Or.inl rfl) ?_
  show ValidWalk c7net opts "m" [c7eMT] "t"
  refine ValidWalk.cons _ _ _ _ rfl (Or.inl rfl) (Or.inl rfl) ?_
  show ValidWalk c7net opts "t" [] "t"
  exact ValidWalk.nil _

theorem c7walkF (opts : PathOptions) : ValidWalk c7net opts "depot" [c7eDF] "f" := by
  refine ValidWalk.cons _ _ _ _ rfl (Or.inl rfl) (Or.inl rfl) ?_
  show ValidWalk c7net opts "f" [] "f"
  exact ValidWalk.nil _

theorem c7_pathA : findPath c7net "depot" "t" (.opts ⟨true, true⟩) = some [c7eDM, c7eMT] := by
  obtain ⟨r, hr⟩ :=
    @findPath_complete c7net "depot" "t" (.opts ⟨true, true⟩) c7net_wf c7D c7T rfl rfl _
      (c7walkT _)
  have hspec := findPath_spec c7net_wf hr
  have hopt := hspec.2 _ (c7walkT _)
  have hcost2 : routeCost c7net (parseOptions (.opts ⟨true, true⟩)) [c7eDM, c7eMT] = 2 := by
    rw [routeCost_cons, routeCost_cons, routeCost_nil, c7_segCost_dm, c7_segCost_mt]
    norm_num
  rw [hcost2] at hopt
  rw [c7_route_t hspec.1 hopt] at hr
  exact hr

theorem c7_pathB : findPath c7net "depot" "f" (.opts ⟨true, true⟩) = some [c7eDF] := by
  obtain ⟨r, hr⟩ :=
    @findPath_complete c7net "depot" "f" (.opts ⟨true, true⟩) c7net_wf c7D c7F rfl rfl _
      (c7walkF _)
  have hspec := findPath_spec c7net_wf hr
  have hopt := hspec.2 _ (c7walkF _)
  have hcost2 : routeCost c7net (parseOptions (.opts ⟨true, true⟩)) [c7eDF] = 17/8 := by
    rw [routeCost_cons, routeCost_nil, c7_segCost_df]
    norm_num
  rw [hcost2] at hopt
  rw [c7_route_f hspec.1 hopt] at hr
  exact hr

/-- C7 counterexample: with the cooldown inactive, the dispatched plow's
outbound route is the single-segment depot-to-f route of cost 17/8 with the
target appended, although the two-segment route to the other endpoint t costs
only 2: the code selects by segment count, not by route length. -/
theorem C7_counterexample :
    (dispatchPlow c7net ⟨0, [], 0⟩ c7S).plows.map PlowData.path = [[c7eDF, c7S]] ∧
    findPath c7net "depot" c7S.«from» (.opts ⟨true, true⟩) = some [c7eDM, c7eMT] ∧
    findPath c7net "depot" c7S.«to» (.opts ⟨true, true⟩) = some [c7eDF] ∧
    routeCost c7net (parseOptions (.opts ⟨true, true⟩)) [c7eDM, c7eMT] <
      routeCost c7net (parseOptions (.opts ⟨true, true⟩)) [c7eDF] := by
  have hA : findPath c7net "depot" c7S.«from» (.opts ⟨true, true⟩) = some [c7eDM, c7eMT] :=
    c7_pathA
  have hB : findPath c7net "depot" c7S.«to» (.opts ⟨true, true⟩) = some [c7eDF] := c7_pathB
  refine ⟨?_, hA, hB, ?_⟩
  · have hcd : ¬ (0 : ℝ) < (⟨0, [], 0⟩ : DispatchState).plowCooldown := by norm_num
    simp only [dispatchPlow, if_neg hcd, hA, hB]
    simp
  · rw [routeCost_cons, routeCost_cons, routeCost_cons, routeCost_nil,
      c7_segCost_dm, c7_segCost_mt, c7_segCost_df]
    norm_num

/-- C7 (amended): with the cooldown inactive, the created plow's outbound
route is the candidate with the fewer segments of the two routes from the
depot to the target's endpoints (ties favouring the `from` endpoint), both
computed with the accumulation- and obstruction-ignoring policy, with the
target segment appended. -/
theorem C7_dispatch_fewest_segments (net : RoadNetwork) (st : DispatchState) (e : Edge)
    (hcd : ¬ 0 < st.plowCooldown) (a b : List Edge)
    (ha : findPath net "depot" e.«from» (.opts ⟨true, true⟩) = some a)
    (hb : findPath net "depot" e.«to» (.opts ⟨true, true⟩) = some b) :
    ∃ d : PlowData, (dispatchPlow net st e).plows = st.plows ++ [d] ∧
      d.path = (if a.length ≤ b.length then a else b) ++ [e] ∧
      d.currentNodeId = "depot" ∧ d.pathIndex = 0 ∧ d.returning = false ∧
      (dispatchPlow net st e).plowCooldown = TIMING_PLOW_COOLDOWN := by
  simp only [dispatchPlow, if_neg hcd, ha, hb]
  exact ⟨_, rfl, by trivial, by trivial, by trivial, by trivial, by trivial⟩

/-- C7 witness: dispatch on the depot line network appends the target to the
fewer-segment route. -/
theorem C7_witness :
    ∃ d : PlowData, (dispatchPlow wNetD ⟨0, [], 7⟩ wEdgeAB2).plows = [] ++ [d] ∧
      d.path = (if [wEdgeDA].length ≤ [wEdgeDA, wEdgeAB2].length then [wEdgeDA]
        else [wEdgeDA, wEdgeAB2]) ++ [wEdgeAB2] ∧
      d.currentNodeId = "depot" ∧ d.pathIndex = 0 ∧ d.returning = false ∧
      (dispatchPlow wNetD ⟨0, [], 7⟩ wEdgeAB2).plowCooldown = TIMING_PLOW_COOLDOWN :=
  C7_dispatch_fewest_segments wNetD ⟨0, [], 7⟩ wEdgeAB2 (by norm_num) [wEdgeDA] [wEdgeDA, wEdgeAB2]
    (by rfl) (by rfl)

/-! ### Claim C8: a network where the return policy matters -/

def c8X : Node := ⟨"x", 0, 0, NodeType.intersection⟩

def c8Y : Node := ⟨"y", 5, 12, NodeType.intersection⟩

def c8De : Node := ⟨"depot", 10, 0, NodeType.depot⟩

def c8eXD : Edge := ⟨"xd", "x", "depot", 10, false⟩

def c8eXY : Edge := ⟨"xy", "x", "y", 0, false⟩

def c8eYD : Edge := ⟨"yd", "y", "depot", 0, false⟩

def c8net : RoadNetwork :=
  ⟨[("x", c8X), ("y", c8Y), ("depot", c8De)],
   [("xd", c8eXD), ("xy", c8eXY), ("yd", c8eYD)],
   [("x", ["xd", "xy"]), ("y", ["xy", "yd"]), ("depot", ["xd", "yd"])]⟩

theorem c8net_wf : WF c8net := by
  constructor <;> decide

theorem c8_segCost_xy (opts : PathOptions) : segCost c8net opts c8eXY = 13 := by
  have h1 : nodesGet c8net "x" = some c8X := rfl
  have h2 : nodesGet c8net "y" = some c8Y := rfl
  simp only [segCost, c8eXY, h1, h2, c8X, c8Y]
  rw [distFn_rat 0 0 5 12 13 (by norm_num) (by norm_num), pen_zero]
  norm_num

theorem c8_segCost_yd (opts : PathOptions) : segCost c8net opts c8eYD = 13 := by
  have h1 : nodesGet c8net "y" = some c8Y := rfl
  have h2 : nodesGet c8net "depot" = some c8De := rfl
  simp only [segCost, c8eYD, h1, h2, c8Y, c8De]
  rw [distFn_rat 5 12 10 0 13 (by norm_num) (by norm_num), pen_zero]
  norm_num

theorem c8_segCost_xd_snow : segCost c8net ⟨true, false⟩ c8eXD = 60 := by
  have h1 : nodesGet c8net "x" = some c8X := rfl
  have h2 : nodesGet c8net "depot" = some c8De := rfl
  simp only [segCost, c8eXD, h1, h2, c8X, c8De]
  rw [distFn_rat 0 0 10 0 10 (by norm_num) (by norm_num)]
  norm_num

theorem c8_segCost_xd_ign : segCost c8net ⟨true, true⟩ c8eXD = 10 := by
  have h1 : nodesGet c8net "x" = some c8X := rfl
  have h2 : nodesGet c8net "depot" = some c8De := rfl
  simp only [segCost, c8eXD, h1, h2, c8X, c8De]
  rw [distFn_rat 0 0 10 0 10 (by norm_num) (by norm_num)]
  norm_num

theorem c8_edges {k : String} {e : Edge} (he : edgesGet c8net k = some e) :
    e = c8eXD ∨ e = c8eXY ∨ e = c8eYD := by
  have hm := listGet_mem he
  simp only [c8net, List.mem_cons, List.not_mem_nil, or_false, Prod.mk.injEq] at hm
  rcases hm with ⟨-, h⟩ | ⟨-, h⟩ | ⟨-, h⟩
  · exact Or.inl h
  · exact Or.inr (Or.inl h)
  · exact Or.inr (Or.inr h)

theorem c8_min_snow :
    ∀ e : Edge, edgesGet c8net e.id = some e → 1 ≤ segCost c8net ⟨true, false⟩ e := by
  intro e he
  rcases c8_edges he with rfl | rfl | rfl
  · rw [c8_segCost_xd_snow]
    norm_num
  · rw [c8_segCost_xy]
    norm_num
  · rw [c8_segCost_yd]
    norm_num

theorem c8_min_ign :
    ∀ e : Edge, edgesGet c8net e.id = some e → 1 ≤ segCost c8net ⟨true, true⟩ e := by
  intro e he
  rcases c8_edges he with rfl | rfl | rfl
  · rw [c8_segCost_xd_ign]
    norm_num
  · rw [c8_segCost_xy]
    norm_num
  · rw [c8_segCost_yd]
    norm_num

theorem c8_route_legacy {r : List Edge}
    (hw : ValidWalk c8net ⟨true, false⟩ "x" r "depot")
    (hc : routeCost c8net ⟨true, false⟩ r ≤ 26) : r = [c8eXY, c8eYD] := by
  rcases ValidWalk_inv hw with ⟨-, habs⟩ | ⟨e, rest, rfl, he, hend, hb, hrest⟩
  · exact absurd habs (by decide)
  rw [routeCost_cons] at hc
  rcases c8_edges he with rfl | rfl | rfl
  · exfalso
    have h2 : 0 ≤ routeCost c8net (⟨true, false⟩ : PathOptions) rest :=
      routeCost_nonneg c8net_wf hrest.edges_mem
    rw [c8_segCost_xd_snow] at hc
    linarith
  · have hgo : getOtherNode c8eXY "x" = "y" := rfl
    rw [hgo] at hrest
    rw [c8_segCost_xy] at hc
    rcases ValidWalk_inv hrest with ⟨-, habs⟩ | ⟨e2, rest2, rfl, he2, hend2, hb2, hrest2⟩
    · exact absurd habs (by decide)
    rw [routeCost_cons] at hc
    rcases c8_edges he2 with rfl | rfl | rfl
    · rcases hend2 with h | h <;> exact absurd h (by decide)
    · exfalso
      have hgo2 : getOtherNode c8eXY "y" = "x" := rfl
      rw [hgo2] at hrest2
      have h2 := walk_cost_lb c8net_wf hrest2
        (show nodesGet c8net "x" = some c8X from rfl)
        (show nodesGet c8net "depot" = some c8De from rfl)
      have h3 : distFn c8X.x c8X.y c8De.x c8De.y = 10 := by
        simp only [c8X, c8De]
        rw [distFn_rat 0 0 10 0 10 (by norm_num) (by norm_num)]
        norm_num
      rw [h3] at h2
      rw [c8_segCost_xy] at hc
      linarith
    · have hgo2 : getOtherNode c8eYD "y" = "depot" := rfl
      rw [hgo2] at hrest2
      rw [c8_segCost_yd] at hc
      have hnil : rest2 = [] := walk_eq_nil_of_cost c8net_wf hrest2 c8_min_snow (by linarith)
      rw [hnil]
  · rcases hend with h | h <;> exact absurd h (by decide)

theorem c8_route_ign {r : List Edge}
    (hw : ValidWalk c8net ⟨true, true⟩ "x" r "depot")
    (hc : routeCost c8net ⟨true, true⟩ r ≤ 10) : r = [c8eXD] := by
  rcases ValidWalk_inv hw with ⟨-, habs⟩ | ⟨e, rest, rfl, he, hend, hb, hrest⟩
  · exact absurd habs (by decide)
  rw [routeCost_cons] at hc
  rcases c8_edges he with rfl | rfl | rfl
  · have hgo : getOtherNode c8eXD "x" = "depot" := rfl
    rw [hgo] at hrest
    rw [c8_segCost_xd_ign] at hc
    have hnil : rest = [] := walk_eq_nil_of_cost c8net_wf hrest c8_min_ign (by linarith)
    rw [hnil]
  · exfalso
    have h2 : 0 ≤ routeCost c8net (⟨true, true⟩ : PathOptions) rest :=
      routeCost_nonneg c8net_wf hrest.edges_mem
    rw [c8_segCost_xy] at hc
    linarith
  · rcases hend with h | h <;> exact absurd h (by decide)

theorem c8walkXYD (opts : PathOptions) :
    ValidWalk c8net opts "x" [c8eXY, c8eYD] "depot" := by
  refine ValidWalk.cons _ _ _ _ rfl (Or.inl rfl) (Or.inl rfl) ?_
  show ValidWalk c8net opts "y" [c8eYD] "depot"
  refine ValidWalk.cons _ _ _ _ rfl (Or.inl rfl) (Or.inl rfl) ?_
  show ValidWalk c8net opts "depot" [] "depot"
  exact ValidWalk.nil _

theorem c8walkXD (opts : PathOptions) : ValidWalk c8net opts "x" [c8eXD] "depot" := by
  refine ValidWalk.cons _ _ _ _ rfl (Or.inl rfl) (Or.inl rfl) ?_
  show ValidWalk c8net opts "depot" [] "depot"
  exact ValidWalk.nil _

theorem c8_return_path : findPath c8net "x" "depot" (.legacy true) = some [c8eXY, c8eYD] := by
  obtain ⟨r, hr⟩ :=
    @findPath_complete c8net "x" "depot" (.legacy true) c8net_wf c8X c8De rfl rfl _
      (c8walkXYD _)
  have hspec := findPath_spec c8net_wf hr
  have hopt := hspec.2 _ (c8walkXYD _)
  have hcost2 : routeCost c8net (parseOptions (.legacy true)) [c8eXY, c8eYD] = 26 := by
    rw [routeCost_cons, routeCost_cons, routeCost_nil]
    rw [show parseOptions (.legacy true) = (⟨true, false⟩ : PathOptions) from rfl]
    rw [c8_segCost_xy, c8_segCost_yd]
    norm_num
  rw [hcost2] at hopt
  have hw : ValidWalk c8net (⟨true, false⟩ : PathOptions) "x" r "depot" := hspec.1
  have hc : routeCost c8net (⟨true, false⟩ : PathOptions) r ≤ 26 := hopt
  rw [c8_route_legacy hw hc] at hr
  exact hr

theorem c8_direct_path :
    findPath c8net "x" "depot" (.opts ⟨true, true⟩) = some [c8eXD] := by
  obtain ⟨r, hr⟩ :=
    @findPath_complete c8net "x" "depot" (.opts ⟨true, true⟩) c8net_wf c8X c8De rfl rfl _
      (c8walkXD _)
  have hspec := findPath_spec c8net_wf hr
  have hopt := hspec.2 _ (c8walkXD _)
  have hcost2 : routeCost c8net (parseOptions (.opts ⟨true, true⟩)) [c8eXD] = 10 := by
    rw [routeCost_cons, routeCost_nil]
    rw [show parseOptions (.opts ⟨true, true⟩) = (⟨true, true⟩ : PathOptions) from rfl]
    rw [c8_segCost_xd_ign]
    norm_num
  rw [hcost2] at hopt
  have hw : ValidWalk c8net (⟨true, true⟩ : PathOptions) "x" r "depot" := hspec.1
  have hc : routeCost c8net (⟨true, true⟩ : PathOptions) r ≤ 10 := hopt
  rw [c8_route_ign hw hc] at hr
  exact hr

def c8plow : PlowData := ⟨"plow-0", [c8eXD], 1, 0, 150, false, "x"⟩

/-- C8 counterexample: the return route is computed with the legacy policy
(ignore obstruction, accumulation still charged), not the ignore-everything
policy: on the 5-12-13 triangle with deep accumulation on the direct segment,
the exhausted plow adopts the two-segment detour while the ignore-everything
policy would take the direct segment. -/
theorem C8_counterexample :
    updatePlow c8net [] c8plow 16 =
      some { c8plow with returning := true
                         path := [c8eXY, c8eYD]
                         pathIndex := 0
                         progress := 0 } ∧
    findPath c8net "x" "depot" (.opts ⟨true, true⟩) = some [c8eXD] ∧
    [c8eXY, c8eYD] ≠ [c8eXD] := by
  refine ⟨?_, c8_direct_path, by decide⟩
  have hex : c8plow.path[c8plow.pathIndex]? = none := rfl
  have hret : ¬(c8plow.returning = true) := by decide
  have hfp : findPath c8net c8plow.currentNodeId "depot" (.legacy true) =
      some [c8eXY, c8eYD] := c8_return_path
  simp only [updatePlow, hex, if_neg hret, hfp]

/-- Outbound invariant of a dispatched plow: while not returning, its route
ends with the target segment, its index stays in range, and on exhaustion it
sits at an endpoint of the target. -/
def OutboundInv (S : Edge) (d : PlowData) : Prop :=
  d.returning = false →
    d.pathIndex ≤ d.path.length ∧ d.path ≠ [] ∧ d.path.getLast? = some S ∧
    (d.pathIndex = d.path.length → d.currentNodeId = S.«from» ∨ d.currentNodeId = S.«to»)

/-- The outbound invariant is preserved by every surviving plow tick. -/
theorem OutboundInv_step {S : Edge} {d d' : PlowData} (hstep : PlowStep d d')
    (hinv : OutboundInv S d) : OutboundInv S d' := by
  obtain ⟨net, cars, delta, hupd⟩ := hstep
  rcases option_cases (d.path[d.pathIndex]?) with hex | ⟨ce, hce⟩
  · simp only [updatePlow, hex] at hupd
    by_cases hret : d.returning = true
    · rw [if_pos hret] at hupd
      exact Option.noConfusion hupd
    · rw [if_neg hret] at hupd
      rcases option_cases (findPath net d.currentNodeId "depot" (.legacy true)) with
        hf | ⟨rp, hf⟩
      · simp only [hf] at hupd
        exact Option.noConfusion hupd
      · simp only [hf] at hupd
        intro hret'
        rw [← Option.some.inj hupd] at hret'
        exact absurd hret' (by simp)
  · simp only [updatePlow, hce] at hupd
    by_cases hstk : StuckCarBlocks cars d ce
    · rw [if_pos hstk] at hupd
      rw [← Option.some.inj hupd]
      exact hinv
    rw [if_neg hstk] at hupd
    have hidx : d.pathIndex < d.path.length := by
      by_contra hge
      rw [List.getElem?_eq_none (le_of_not_lt hge)] at hce
      exact Option.noConfusion hce
    by_cases hroll : (1 : ℝ) ≤ d.progress + d.speed * (delta / 1000) / getEdgeLength net ce
    · rw [if_pos hroll] at hupd
      have hd' := (Option.some.inj hupd).symm
      subst hd'
      intro hret
      have hret0 : d.returning = false := hret
      obtain ⟨hle, hne, hlast, hend⟩ := hinv hret0
      refine ⟨?_, hne, hlast, ?_⟩
      · show d.pathIndex + 1 ≤ d.path.length
        omega
      · intro hfin
        have hfin2 : d.pathIndex + 1 = d.path.length := hfin
        have hidx2 : d.pathIndex = d.path.length - 1 := by omega
        have hcelast : some ce = some S := by
          rw [← hce, hidx2, ← List.getLast?_eq_getElem?, hlast]
        have hceS : ce = S := Option.some.inj hcelast
        show getOtherNode ce d.currentNodeId = S.«from» ∨
          getOtherNode ce d.currentNodeId = S.«to»
        rw [hceS]
        exact getOtherNode_cases S d.currentNodeId
    · rw [if_neg hroll] at hupd
      rw [← Option.some.inj hupd]
      intro hret
      exact hinv hret

/-- A freshly dispatched plow satisfies the outbound invariant. -/
theorem OutboundInv_dispatch {net : RoadNetwork} {st : DispatchState} {S : Edge}
    {d0 : PlowData} (hdisp : (dispatchPlow net st S).plows = st.plows ++ [d0]) :
    OutboundInv S d0 := by
  by_cases hcd : 0 < st.plowCooldown
  · rw [dispatchPlow, if_pos hcd] at hdisp
    exfalso
    have := congrArg List.length hdisp
    simp at this
  rcases option_cases (findPath net "depot" S.«from» (.opts ⟨true, true⟩)) with hA | ⟨a, hA⟩ <;>
    rcases option_cases (findPath net "depot" S.«to» (.opts ⟨true, true⟩)) with hB | ⟨b, hB⟩ <;>
    simp only [dispatchPlow, if_neg hcd, hA, hB] at hdisp
  · exfalso
    have := congrArg List.length hdisp
    simp at this
  all_goals {
    have hd0 : d0 = _ := (List.cons.inj (List.append_cancel_left hdisp)).1.symm
    rw [hd0]
    intro _
    refine ⟨by simp, by simp, List.getLast?_concat _, ?_⟩
    intro h0
    exfalso
    rw [List.length_append] at h0
    simp at h0
  }

/-- The outbound invariant is preserved along any run of plow ticks. -/
theorem OutboundInv_reach {S : Edge} {d0 d : PlowData}
    (h : Relation.ReflTransGen PlowStep d0 d) (h0 : OutboundInv S d0) : OutboundInv S d := by
  induction h with
  | refl => exact h0
  | tail hab hbc ih => exact OutboundInv_step hbc ih

/-- C8 (amended): a plow dispatched to segment S stands at an endpoint of S
once its outbound route is exhausted; the return route it then computes with
the legacy ignore-obstruction policy is an admissible walk ending at the
depot; and when no return route exists the plow is destroyed. -/
theorem C8_round_trip (net : RoadNetwork) (hwf : WF net) (st : DispatchState) (S : Edge)
    (d0 d : PlowData) (cars : List CarData) (delta : ℝ)
    (hdisp : (dispatchPlow net st S).plows = st.plows ++ [d0])
    (hreach : Relation.ReflTransGen PlowStep d0 d)
    (hnr : d.returning = false)
    (hex : d.path[d.pathIndex]? = none) :
    (d.currentNodeId = S.«from» ∨ d.currentNodeId = S.«to») ∧
    (∀ d', updatePlow net cars d delta = some d' →
      ∃ rp, findPath net d.currentNodeId "depot" (.legacy true) = some rp ∧
        ValidWalk net ⟨true, false⟩ d.currentNodeId rp "depot" ∧
        d'.path = rp ∧ d'.pathIndex = 0 ∧ d'.returning = true) ∧
    (findPath net d.currentNodeId "depot" (.legacy true) = none →
      updatePlow net cars d delta = none) := by
  have hinv := OutboundInv_reach hreach (OutboundInv_dispatch hdisp)
  obtain ⟨hle, hne, hlast, hend⟩ := hinv hnr
  have hlen : d.path.length ≤ d.pathIndex := by
    by_contra hlt
    rw [List.getElem?_eq_getElem (lt_of_not_le hlt)] at hex
    exact Option.noConfusion hex
  have hidx : d.pathIndex = d.path.length := le_antisymm hle hlen
  have hloc := hend hidx
  have hret : ¬(d.returning = true) := by
    rw [hnr]
    simp
  refine ⟨hloc, ?_, ?_⟩
  · intro d' hupd
    simp only [updatePlow, hex, if_neg hret] at hupd
    rcases option_cases (findPath net d.currentNodeId "depot" (.legacy true)) with
      hf | ⟨rp, hf⟩
    · simp only [hf] at hupd
      exact Option.noConfusion hupd
    · simp only [hf] at hupd
      refine ⟨rp, hf, (findPath_spec hwf hf).1, ?_, ?_, ?_⟩
      · rw [← Option.some.inj hupd]
      · rw [← Option.some.inj hupd]
      · rw [← Option.some.inj hupd]
  · intro hf
    simp only [updatePlow, hex, if_neg hret, hf]

def w8d0 : PlowData := ⟨"plow-0", [wEdgeDA], 0, 0, SPEEDS_PLOW, false, "depot"⟩

def w8d1 : PlowData := ⟨"plow-0", [wEdgeDA], 1, 0, SPEEDS_PLOW, false, "a"⟩

/-- Dispatching on the line network creates the single-segment plow. -/
theorem w8_dispatch : (dispatchPlow wNetD ⟨0, [], 0⟩ wEdgeDA).plows = [] ++ [w8d0] := by
  have hcd : ¬ (0 : ℝ) < (⟨0, [], 0⟩ : DispatchState).plowCooldown := by norm_num
  have hA : findPath wNetD "depot" wEdgeDA.«from» (.opts ⟨true, true⟩) = some [] := rfl
  have hB : findPath wNetD "depot" wEdgeDA.«to» (.opts ⟨true, true⟩) =
      some [wEdgeDA] := rfl
  simp only [dispatchPlow, if_neg hcd, hA, hB]
  have hid : "plow-" ++ toString 0 = "plow-0" := rfl
  simp [w8d0, SPEEDS_PLOW, hid]

/-- One full-speed tick rolls the witness plow over its only segment. -/
theorem w8_step : updatePlow wNetD [] w8d0 1000 = some w8d1 := by
  have hce : w8d0.path[w8d0.pathIndex]? = some wEdgeDA := rfl
  have hstk : ¬ StuckCarBlocks [] w8d0 wEdgeDA := by
    rintro ⟨car, hcar, -⟩
    exact absurd hcar (List.not_mem_nil _)
  have hlen : getEdgeLength wNetD wEdgeDA = 1 := by
    have h1 : nodesGet wNetD "depot" = some wNodeD := rfl
    have h2 : nodesGet wNetD "a" = some wNodeA2 := rfl
    simp only [getEdgeLength, wEdgeDA, h1, h2, wNodeD, wNodeA2]
    rw [distFn_rat 0 0 1 0 1 (by norm_num) (by norm_num)]
    norm_num
  have hroll : (1 : ℝ) ≤ w8d0.progress + w8d0.speed * (1000 / 1000) /
      getEdgeLength wNetD wEdgeDA := by
    rw [hlen]
    norm_num [w8d0, SPEEDS_PLOW]
  simp only [updatePlow, hce, if_neg hstk, if_pos hroll]
  rfl

/-- C8 witness: the dispatched line-network plow after one rollover tick is at
an endpoint of the target and adopts a returning route ending at the
depot. -/
theorem C8_witness :
    (w8d1.currentNodeId = wEdgeDA.«from» ∨ w8d1.currentNodeId = wEdgeDA.«to») ∧
    (∀ d', updatePlow wNetD [] w8d1 16 = some d' →
      ∃ rp, findPath wNetD w8d1.currentNodeId "depot" (.legacy true) = some rp ∧
        ValidWalk wNetD ⟨true, false⟩ w8d1.currentNodeId rp "depot" ∧
        d'.path = rp ∧ d'.pathIndex = 0 ∧ d'.returning = true) ∧
    (findPath wNetD w8d1.currentNodeId "depot" (.legacy true) = none →
      updatePlow wNetD [] w8d1 16 = none) :=
  C8_round_trip wNetD wNetD_wf ⟨0, [], 0⟩ wEdgeDA w8d0 w8d1 [] 16 w8_dispatch
    (Relation.ReflTransGen.single ⟨wNetD, [], 1000, w8_step⟩) rfl rfl

end RushHour
